import Mathlib

set_option maxRecDepth 4000

/-!
Verification development for the BigDiff directory-comparison tool.

The Rust sources (src/comment.rs, src/utils.rs, src/scanner.rs, src/diff.rs)
are shallowly embedded below.  Rust `str`/`String` values are modelled as
`List Char`, byte buffers as `List Nat` (each element a byte value < 256),
and filesystem paths as lists of components (`List (List Char)`).

The filesystem itself is modelled denotationally: an input root is a finite
set of (relative path, content) files plus a finite set of relative
directory paths; `walkdir`'s traversal with `filter_entry` pruning is
embedded as the set of entries none of whose ancestors (including the entry
itself) is ignored.  The output directory is a growable map from paths to
byte contents plus a set of created directories.  I/O failure of the
individual `fs::copy`/`fs::write` calls that the diff engine performs on the
output tree is modelled by a failure oracle on the destination path;
`Except Unit` mirrors `anyhow::Result`.
-/

set_option maxHeartbeats 1000000

namespace BigDiff

/-- Rust string slices / owned strings, modelled as their character list. -/
abbrev Str := List Char

/-- Byte buffers (`Vec<u8>` / `&[u8]`), each element a byte value. -/
abbrev Bytes := List Nat

/-- Filesystem paths as their list of normal components. -/
abbrev Path := List Str

/-! ## String helpers shared by the embedding -/

/-- The final `'.'`-separated split of a file name: `splitLastDot n = some (s, e)`
when `n = s ++ "." ++ e` and `e` contains no `'.'`; `none` when `n` has no dot. -/
def splitLastDot : Str → Option (Str × Str)
  | [] => none
  | c :: cs =>
    match splitLastDot cs with
    | some (pre, post) => some (c :: pre, post)
    | none => if c = '.' then some ([], cs) else none

/-- Rust `Path::file_stem` on a single file-name component. -/
def fileStem (name : Str) : Str :=
  match splitLastDot name with
  | some (pre, _) => if pre = [] then name else pre
  | none => name

/-- Rust `Path::extension` on a single file-name component: the part after the
last dot, unless the name has no dot or starts with its only dot. -/
def rustExtension (name : Str) : Option Str :=
  match splitLastDot name with
  | some (pre, post) => if pre = [] then none else some post
  | none => none

/-- Append a suffix to the final component of a path
(Rust `set_file_name(name + suffix)` after `file_name()`). -/
def appendToLast (p : Path) (suf : Str) : Path :=
  match p.getLast? with
  | none => p
  | some name => p.dropLast ++ [name ++ suf]

/-- Characterwise lowercasing (Rust `str::to_lowercase`; the inputs of
interest are ASCII, where the two agree). -/
def toLowerStr (s : Str) : Str := s.map Char.toLower

/-- Rust `str::trim`: strip whitespace from both ends. -/
def trimStr (s : Str) : Str :=
  ((s.dropWhile Char.isWhitespace).reverse.dropWhile Char.isWhitespace).reverse

/-- Decimal digit string to number (value of Rust integer/float digit runs). -/
def digitsToNat (s : Str) : Nat :=
  s.foldl (fun a c => a * 10 + (c.toNat - 48)) 0

/-- Decimal rendering of a natural number (Rust's `{}` formatting of
integers), run on structural fuel so that it reduces in the kernel; the
initial fuel `n + 1` always suffices. -/
def natToDecGo : Nat → Nat → Str → Str
  | 0, _, acc => acc
  | fuel + 1, n, acc =>
    let d := Char.ofNat (48 + n % 10)
    if n < 10 then d :: acc else natToDecGo fuel (n / 10) (d :: acc)

def natToDec (n : Nat) : Str := natToDecGo (n + 1) n []

/-- Join path components with forward slashes
(`Path::to_string_lossy` + backslash normalisation in `is_ignored`). -/
def joinSlash : Path → Str
  | [] => []
  | [c] => c
  | c :: rest => c ++ '/' :: joinSlash rest

/-! ## src/comment.rs -/

/-- `CommentStyle` (src/comment.rs).  Field names `pfx`/`openS`/`closeS` stand
for the Rust fields `prefix`/`open`/`close`, which are not usable as Lean
field names here. -/
inductive CommentStyle where
  | LinePrefix (pfx new_suffix : Str)
  | Block (openS closeS new_block : Str)
  deriving DecidableEq, Repr

/-- `split_newline` (src/comment.rs): split a trailing `'\n'` off a line. -/
def split_newline (s : Str) : Str × Str :=
  if s.getLast? = some '\n' then (s.dropLast, ['\n']) else (s, [])

/-- `CommentStyle::deleted_line` (src/comment.rs). -/
def CommentStyle.deleted_line (st : CommentStyle) (line : Str) : Str :=
  let (content, e) := split_newline line
  match st with
  | .LinePrefix pfx _ => pfx ++ ("DELETED: ").data ++ content ++ e
  | .Block o c _ => o ++ (" DELETED: ").data ++ content ++ [' '] ++ c ++ e

/-- `CommentStyle::append_new_suffix` (src/comment.rs). -/
def CommentStyle.append_new_suffix (st : CommentStyle) (line : Str) : Str :=
  let (content, e) := split_newline line
  match st with
  | .LinePrefix _ suf => content ++ suf ++ e
  | .Block _ _ nb => content ++ [' '] ++ nb ++ e

def slash_exts : List Str :=
  [(".c").data, (".h").data, (".cpp").data, (".hpp").data, (".cc").data,
   (".java").data, (".js").data, (".ts").data, (".tsx").data, (".cs").data,
   (".swift").data, (".go").data, (".kt").data, (".kts").data,
   (".scala").data, (".dart").data, (".php").data, (".rs").data]

def hash_exts : List Str :=
  [(".py").data, (".sh").data, (".rb").data, (".r").data, (".ps1").data,
   (".toml").data, (".yaml").data, (".yml").data, (".cfg").data,
   (".gitignore").data, (".dockerignore").data]

def dash_exts : List Str := [(".sql").data, (".hs").data, (".lua").data]

def percent_exts : List Str := [(".tex").data, (".m").data]

def semicolon_exts : List Str := [(".ini").data]

def csv_like : List Str := [(".csv").data, (".tsv").data]

def text_like : List Str := [(".txt").data, (".log").data, (".conf").data, (".md").data]

def html_exts : List Str :=
  [(".html").data, (".htm").data, (".xml").data, (".xhtml").data, (".svg").data]

def cblock_exts : List Str := [(".css").data, (".scss").data, (".less").data]

def json_exts : List Str := [(".json").data]

/-- `comment_style_for` (src/comment.rs): comment style from the lowercased
extension of the path's final component. -/
def comment_style_for (path : Path) : CommentStyle :=
  let ext0 := match path.getLast? with
    | some name => (rustExtension name).getD []
    | none => []
  let ext := '.' :: toLowerStr ext0
  if ext ∈ slash_exts then
    .LinePrefix (("// ").data) ((" // NEW").data)
  else if ext ∈ hash_exts ∨ ext ∈ text_like ∨ ext ∈ csv_like then
    .LinePrefix (("# ").data) ((" # NEW").data)
  else if ext ∈ dash_exts then
    .LinePrefix (("-- ").data) ((" -- NEW").data)
  else if ext ∈ percent_exts then
    .LinePrefix (("% ").data) ((" % NEW").data)
  else if ext ∈ semicolon_exts then
    .LinePrefix (("; ").data) ((" ; NEW").data)
  else if ext ∈ html_exts then
    .Block (("<!--").data) (("-->").data) (("<!-- NEW -->").data)
  else if ext ∈ cblock_exts ∨ ext ∈ json_exts then
    .Block (("/*").data) (("*/").data) (("/* NEW */").data)
  else
    .LinePrefix (("# ").data) ((" # NEW").data)

/-- The shape shared by all styles in the registry: the fixed annotation
strings contain no newline, and a line-style insert marker is non-empty
(used to state newline preservation of the annotators). -/
def AnnotStyleOk : CommentStyle → Prop
  | .LinePrefix p suf => '\n' ∉ p ∧ '\n' ∉ suf ∧ suf ≠ []
  | .Block o c nb => '\n' ∉ o ∧ '\n' ∉ c ∧ '\n' ∉ nb

/-! ## src/utils.rs -/

/-- Floor base-2 logarithm by halving, on structural fuel (enough fuel for
`n < 2 ^ fuel`); used below `2 ^ 32` where 32 rounds suffice. -/
def log2HalvGo : Nat → Nat → Nat
  | 0, _ => 0
  | fuel + 1, n => if 2 ≤ n then log2HalvGo fuel (n / 2) + 1 else 0

/-- Floor base-2 logarithm on structural fuel, taking 32 bits per round
(`log2Go n n` is `⌊log₂ n⌋` for `n ≥ 1`; fuel `n` always suffices, and the
shallow recursion keeps evaluation on huge inputs within the kernel's
reduction depth). -/
def log2Go : Nat → Nat → Nat
  | 0, _ => 0
  | fuel + 1, n =>
    if 2 ^ 32 ≤ n then log2Go fuel (n / 2 ^ 32) + 32 else log2HalvGo 32 n

def natLog2 (n : Nat) : Nat := log2Go n n

/-- `⌊log₂ (a / b)⌋` for `1 ≤ b ≤ a`: the largest `e` with `2 ^ e * b ≤ a`. -/
def floorLog2Rat (a b : Nat) : Nat :=
  let c := natLog2 a - natLog2 b
  if 2 ^ c * b ≤ a then c else c - 1

/-- The integer nearest to `num / den`, ties going to the even integer. -/
def roundHalfEven (num den : Nat) : Nat :=
  let q := num / den
  let r := num % den
  if 2 * r < den then q
  else if den < 2 * r then q + 1
  else if q % 2 = 0 then q else q + 1

/-- The nonnegative rational `n / d` (`0 < d`) rounded to the nearest
IEEE-754 binary64 value, ties to even.  The result `(M, E74)` stands for the
double `M * 2 ^ E74 / 2 ^ 1074` (`2 ^ (-1074)` is the least positive
double); `none` is overflow to `+∞`.  Values below `2 ^ (-1022)` round at
the fixed subnormal quantum `2 ^ (-1074)`; normal values round to a 53-bit
significand; results beyond the top finite exponent (`E74 = 2045`) are
`+∞`. -/
def roundF64 (n d : Nat) : Option (Nat × Nat) :=
  if n = 0 then some (0, 0)
  else if n * 2 ^ 1022 < d then
    some (roundHalfEven (n * 2 ^ 1074) d, 0)
  else
    let E74 := floorLog2Rat (n * 2 ^ 1022) d
    let M := roundHalfEven (n * 2 ^ (1074 - E74)) (d * 2 ^ (E74 - 1074))
    if M = 2 ^ 53 then
      if E74 + 1 ≤ 2045 then some (2 ^ 52, E74 + 1) else none
    else if E74 ≤ 2045 then some (M, E74) else none

/-- Rust's `as u64` on a nonnegative binary64 value: truncation toward
zero; `+∞` and values at or above `2 ^ 64` saturate to `u64::MAX`. -/
def castF64U64 : Option (Nat × Nat) → Nat
  | none => 2 ^ 64 - 1
  | some (M, E74) => min (M * 2 ^ E74 / 2 ^ 1074) (2 ^ 64 - 1)

/-- What Rust `str::parse::<f64>` accepted, before binary rounding: `inf`,
`nan`, or the exact decimal `num * 10 ^ e10n / 10 ^ e10d`. -/
inductive F64Lit where
  | nan : F64Lit
  | inf : F64Lit
  | fin (num e10n e10d : Nat) : F64Lit
  deriving DecidableEq, Repr

/-- The `Digit* '.'? Digit* Exp?` number body of Rust's `f64` grammar
(at least one mantissa digit; `Exp ::= ('e'|'E') ('+'|'-')? Digit+`), as
the exact decimal `(num, e10n, e10d)` for `num * 10 ^ e10n / 10 ^ e10d`. -/
def parseDecNumber (s : Str) : Option (Nat × Nat × Nat) :=
  let ip := s.takeWhile Char.isDigit
  let r1 := s.dropWhile Char.isDigit
  let fp := match r1 with
    | '.' :: t => t.takeWhile Char.isDigit
    | _ => []
  let r2 := match r1 with
    | '.' :: t => t.dropWhile Char.isDigit
    | _ => r1
  if ip = [] ∧ fp = [] then none
  else
    match r2 with
    | [] => some (digitsToNat (ip ++ fp), 0, fp.length)
    | e :: t =>
      if e = 'e' ∨ e = 'E' then
        let (eneg, ed) : Bool × Str := match t with
          | '-' :: u => (true, u)
          | '+' :: u => (false, u)
          | _ => (false, t)
        if ed ≠ [] ∧ ed.all Char.isDigit then
          if eneg then some (digitsToNat (ip ++ fp), 0, fp.length + digitsToNat ed)
          else some (digitsToNat (ip ++ fp), digitsToNat ed, fp.length)
        else none
      else none

def parseF64Core (neg : Bool) (body : Str) : Option (Bool × F64Lit) :=
  if toLowerStr body = ("inf").data ∨ toLowerStr body = ("infinity").data then
    some (neg, .inf)
  else if toLowerStr body = ("nan").data then some (neg, .nan)
  else (parseDecNumber body).map (fun v => (neg, .fin v.1 v.2.1 v.2.2))

/-- Rust `str::parse::<f64>` (std's `dec2flt` grammar): an optional sign,
then case-insensitive `inf`/`infinity`/`nan` or a decimal number with
optional fraction and exponent.  The numeric payload stays an exact
decimal; binary64 rounding happens at use (`f64AsU64`). -/
def parseF64 (s : Str) : Option (Bool × F64Lit) :=
  match s with
  | '-' :: r => parseF64Core true r
  | '+' :: r => parseF64Core false r
  | _ => parseF64Core false s

/-- Rust `str::parse::<u64>`: digits with an optional leading `+`; values
above `u64::MAX` are an overflow `Err`. -/
def parseU64 (s : Str) : Option Nat :=
  let body := match s with
    | '+' :: r => r
    | _ => s
  if body ≠ [] ∧ body.all Char.isDigit ∧ digitsToNat body < 2 ^ 64 then
    some (digitsToNat body)
  else none

/-- Rust's `(val * mult as f64) as u64` for a parsed `val`: the decimal is
rounded to binary64, `mult` is converted to binary64 (`as f64`), the
product is rounded to the nearest double (ties to even), and the `as u64`
cast truncates toward zero with saturation: negative values and `NaN` give
0, `+∞` and values at or above `2 ^ 64` give `u64::MAX`. -/
def f64AsU64 (v : Bool × F64Lit) (mult : Nat) : Nat :=
  match v.2 with
  | .nan => 0
  | .inf => if v.1 ∨ mult = 0 then 0 else 2 ^ 64 - 1
  | .fin num e10n e10d =>
    if v.1 then 0
    else
      match roundF64 (num * 10 ^ e10n) (10 ^ e10d) with
      | none => if mult = 0 then 0 else 2 ^ 64 - 1
      | some (M, E) =>
        if M = 0 then 0
        else
          match roundF64 mult 1 with
          | none => 2 ^ 64 - 1
          | some (Mm, Em) =>
            if Mm = 0 then 0
            else castF64U64 (roundF64 (M * Mm * 2 ^ (E + Em)) (2 ^ 2148))

/-- Rust `str::trim_end_matches`: repeatedly strip a trailing occurrence of
`pat`; run on structural fuel (a non-empty `pat` strips at least one
character per round, so fuel `s.length` always suffices). -/
def trimEndMatchesGo (pat : Str) : Nat → Str → Str
  | 0, s => s
  | fuel + 1, s =>
    if pat ≠ [] ∧ pat.isSuffixOf s then
      trimEndMatchesGo pat fuel (s.take (s.length - pat.length))
    else s

def trimEndMatches (pat s : Str) : Str := trimEndMatchesGo pat s.length s

/-- The unit table of `parse_size` (src/utils.rs), in source order. -/
def sizeUnits : List (Str × Nat) :=
  [(("gib").data, 1024 ^ 3), (("g").data, 1000 ^ 3),
   (("mib").data, 1024 ^ 2), (("m").data, 1000 ^ 2),
   (("kib").data, 1024), (("k").data, 1000),
   (("kb").data, 1000), (("mb").data, 1000 ^ 2), (("gb").data, 1000 ^ 3),
   (("b").data, 1)]

def parseSizeLoop (s : Str) : List (Str × Nat) → Nat
  | [] => (parseU64 s).getD 0
  | (unit, mult) :: rest =>
    if unit.isSuffixOf s then
      match parseF64 (trimEndMatches unit s) with
      | some val => f64AsU64 val mult
      | none => parseSizeLoop s rest
    else parseSizeLoop s rest

/-- `parse_size` (src/utils.rs). -/
def parse_size (s : Str) : Nat :=
  let s := toLowerStr (trimStr s)
  parseSizeLoop s sizeUnits

/-- Strict UTF-8 decoding of a byte sequence (RFC 3629, as validated by
Rust's `str::from_utf8` / `String::from_utf8`): rejects overlong forms,
surrogates and code points above U+10FFFF. -/
def utf8Decode : Bytes → Option (List Char)
  | [] => some []
  | b :: rest =>
    if b < 128 then
      (utf8Decode rest).map (fun cs => Char.ofNat b :: cs)
    else if 194 ≤ b ∧ b ≤ 223 then
      match rest with
      | b1 :: r =>
        if 128 ≤ b1 ∧ b1 ≤ 191 then
          (utf8Decode r).map (fun cs => Char.ofNat ((b - 192) * 64 + (b1 - 128)) :: cs)
        else none
      | [] => none
    else if 224 ≤ b ∧ b ≤ 239 then
      match rest with
      | b1 :: b2 :: r =>
        let lo1 := if b = 224 then 160 else 128
        let hi1 := if b = 237 then 159 else 191
        if (lo1 ≤ b1 ∧ b1 ≤ hi1) ∧ (128 ≤ b2 ∧ b2 ≤ 191) then
          (utf8Decode r).map (fun cs =>
            Char.ofNat ((b - 224) * 4096 + (b1 - 128) * 64 + (b2 - 128)) :: cs)
        else none
      | _ => none
    else if 240 ≤ b ∧ b ≤ 244 then
      match rest with
      | b1 :: b2 :: b3 :: r =>
        let lo1 := if b = 240 then 144 else 128
        let hi1 := if b = 244 then 143 else 191
        if (lo1 ≤ b1 ∧ b1 ≤ hi1) ∧ (128 ≤ b2 ∧ b2 ≤ 191) ∧ (128 ≤ b3 ∧ b3 ≤ 191) then
          (utf8Decode r).map (fun cs =>
            Char.ofNat ((b - 240) * 262144 + (b1 - 128) * 4096 + (b2 - 128) * 64 + (b3 - 128)) :: cs)
        else none
      | _ => none
    else none

/-- Validity of a byte sequence as strict UTF-8 (`str::from_utf8(..).is_ok()`). -/
def validUtf8 (bs : Bytes) : Bool := (utf8Decode bs).isSome

/-- `is_probably_binary` (src/utils.rs).  `none` models a file that cannot be
opened or whose read fails; a successful read returns the first
`min 4096 (length)` bytes of the file. -/
def is_probably_binary (file : Option Bytes) : Bool :=
  match file with
  | none => true
  | some bytes =>
    let n := min 4096 bytes.length
    if n = 0 then false
    else
      let slice := bytes.take 4096
      if slice.contains 0 then true
      else !(validUtf8 slice)

/-- The WHATWG windows-1252 decode table for bytes 0x80–0x9F
(`encoding_rs::WINDOWS_1252`); all other bytes map to their own code point. -/
def win1252Char (b : Nat) : Char :=
  if b = 128 then Char.ofNat 8364
  else if b = 130 then Char.ofNat 8218
  else if b = 131 then Char.ofNat 402
  else if b = 132 then Char.ofNat 8222
  else if b = 133 then Char.ofNat 8230
  else if b = 134 then Char.ofNat 8224
  else if b = 135 then Char.ofNat 8225
  else if b = 136 then Char.ofNat 710
  else if b = 137 then Char.ofNat 8240
  else if b = 138 then Char.ofNat 352
  else if b = 139 then Char.ofNat 8249
  else if b = 140 then Char.ofNat 338
  else if b = 142 then Char.ofNat 381
  else if b = 145 then Char.ofNat 8216
  else if b = 146 then Char.ofNat 8217
  else if b = 147 then Char.ofNat 8220
  else if b = 148 then Char.ofNat 8221
  else if b = 149 then Char.ofNat 8226
  else if b = 150 then Char.ofNat 8211
  else if b = 151 then Char.ofNat 8212
  else if b = 152 then Char.ofNat 732
  else if b = 153 then Char.ofNat 8482
  else if b = 154 then Char.ofNat 353
  else if b = 155 then Char.ofNat 8250
  else if b = 156 then Char.ofNat 339
  else if b = 158 then Char.ofNat 382
  else if b = 159 then Char.ofNat 376
  else Char.ofNat b

def win1252Decode (bs : Bytes) : Str := bs.map win1252Char

/-- Rust `str::replace("\r\n", "\n")`: leftmost non-overlapping rewriting. -/
def replaceCrlf : Str → Str
  | '\r' :: '\n' :: r => '\n' :: replaceCrlf r
  | c :: r => c :: replaceCrlf r
  | [] => []

/-- Rust `str::replace('\r', "\n")`. -/
def replaceCr (s : Str) : Str := s.map (fun c => if c = '\r' then '\n' else c)

/-- `read_text_best_effort` (src/utils.rs): `none` models `fs::read` failing;
otherwise decode as strict UTF-8 with a windows-1252 fallback and optionally
normalise line endings. -/
def read_text_best_effort (file : Option Bytes) (normalize_eol : Bool) : Option Str :=
  file.map fun bytes =>
    let content := match utf8Decode bytes with
      | some s => s
      | none => win1252Decode bytes
    if normalize_eol then replaceCr (replaceCrlf content) else content

/-! ### SHA-256 (the `sha2::Sha256` digest used by `file_bytes_equal`) -/

def w32 (x : Nat) : Nat := x % 4294967296

def rotr (n x : Nat) : Nat := w32 ((x >>> n) ||| (x <<< (32 - n)))

def bigSigma0 (x : Nat) : Nat := rotr 2 x ^^^ rotr 13 x ^^^ rotr 22 x

def bigSigma1 (x : Nat) : Nat := rotr 6 x ^^^ rotr 11 x ^^^ rotr 25 x

def smallSigma0 (x : Nat) : Nat := rotr 7 x ^^^ rotr 18 x ^^^ (x >>> 3)

def smallSigma1 (x : Nat) : Nat := rotr 17 x ^^^ rotr 19 x ^^^ (x >>> 10)

def sha256K : List Nat :=
  [1116352408, 1899447441, 3049323471] ++
  [3921009573, 961987163, 1508970993] ++
  [2453635748, 2870763221, 3624381080] ++
  [310598401, 607225278, 1426881987] ++
  [1925078388, 2162078206, 2614888103] ++
  [3248222580, 3835390401, 4022224774] ++
  [264347078, 604807628, 770255983] ++
  [1249150122, 1555081692, 1996064986] ++
  [2554220882, 2821834349, 2952996808] ++
  [3210313671, 3336571891, 3584528711] ++
  [113926993, 338241895, 666307205] ++
  [773529912, 1294757372, 1396182291] ++
  [1695183700, 1986661051, 2177026350] ++
  [2456956037, 2730485921, 2820302411] ++
  [3259730800, 3345764771, 3516065817] ++
  [3600352804, 4094571909, 275423344] ++
  [430227734, 506948616, 659060556] ++
  [883997877, 958139571, 1322822218] ++
  [1537002063, 1747873779, 1955562222] ++
  [2024104815, 2227730452, 2361852424] ++
  [2428436474, 2756734187] ++
  [3204031479, 3329325298]

def sha256Init : List Nat :=
  [1779033703, 3144134277, 1013904242] ++
  [2773480762, 1359893119, 2600822924] ++
  [528734635, 1541459225]

/-- Big-endian byte rendering of `n` in `k` bytes. -/
def beBytes (k n : Nat) : Bytes :=
  (List.range k).map (fun i => n / 256 ^ (k - 1 - i) % 256)

def sha256Pad (msg : Bytes) : Bytes :=
  let len := msg.length
  let padZeros := (119 - len % 64) % 64
  msg ++ [128] ++ List.replicate padZeros 0 ++ beBytes 8 (len * 8)

/-- Split into 64-byte blocks (structural fuel; `bs.length` always suffices
since every round consumes at least one byte). -/
def chunks64Go : Nat → Bytes → List Bytes
  | 0, _ => []
  | fuel + 1, bs => if bs = [] then [] else bs.take 64 :: chunks64Go fuel (bs.drop 64)

def chunks64 (bs : Bytes) : List Bytes := chunks64Go bs.length bs

def wordsOfBlock (b : Bytes) : List Nat :=
  (List.range 16).map (fun i =>
    b.getD (4 * i) 0 * 16777216 + b.getD (4 * i + 1) 0 * 65536 +
    b.getD (4 * i + 2) 0 * 256 + b.getD (4 * i + 3) 0)

def scheduleExtend : List Nat → Nat → List Nat
  | ws, 0 => ws
  | ws, fuel + 1 =>
    let m := ws.length
    scheduleExtend
      (ws ++ [w32 (smallSigma1 (ws.getD (m - 2) 0) + ws.getD (m - 7) 0 +
                   smallSigma0 (ws.getD (m - 15) 0) + ws.getD (m - 16) 0)]) fuel

def sha256Compress (hs : List Nat) (ws : List Nat) : List Nat :=
  let final := (List.zip sha256K ws).foldl
    (fun st kw =>
      match st with
      | [a, b, c, d, e, f, g, h] =>
        let ch := (e &&& f) ^^^ ((e ^^^ 4294967295) &&& g)
        let maj := (a &&& b) ^^^ (a &&& c) ^^^ (b &&& c)
        let t1 := w32 (h + bigSigma1 e + ch + kw.1 + kw.2)
        let t2 := w32 (bigSigma0 a + maj)
        [w32 (t1 + t2), a, b, c, w32 (d + t1), e, f, g]
      | st => st) hs
  List.zipWith (fun x y => w32 (x + y)) hs final

/-- SHA-256 digest of a byte sequence, as the 32 digest bytes. -/
def sha256 (msg : Bytes) : Bytes :=
  ((chunks64 (sha256Pad msg)).foldl
    (fun hs blk => sha256Compress hs (scheduleExtend (wordsOfBlock blk) 48))
    sha256Init).flatMap (beBytes 4)

def hexDigit (n : Nat) : Char := ("0123456789abcdef").data.getD n '0'

/-- `hex::encode`: lowercase hex rendering of a byte sequence. -/
def hexEncode (bs : Bytes) : Str :=
  bs.flatMap (fun b => [hexDigit (b / 16), hexDigit (b % 16)])

/-- `file_bytes_equal` (src/utils.rs).  `none` models a file that cannot be
opened or read (the hashing closure returning `None`). -/
def file_bytes_equal (f1 f2 : Option Bytes) : Bool :=
  match f1.map (fun b => hexEncode (sha256 b)), f2.map (fun b => hexEncode (sha256 b)) with
  | some h1, some h2 => h1 == h2
  | _, _ => false

/-! ### Collision avoidance -/

/-- The candidate file name `"{stem} ({n}){ext}"` tried by `avoid_collision`. -/
def candName (stem : Str) (n : Nat) (ext : Str) : Str :=
  stem ++ (" (").data ++ natToDec n ++ [')'] ++ ext

/-- The `n`-th candidate path tried by `avoid_collision`: the parent joined
with `"{stem} ({n}){ext}"` of the original file name. -/
def collisionCand (path : Path) (n : Nat) : Path :=
  let name := (path.getLast?).getD []
  let ext := match rustExtension name with
    | some e => '.' :: e
    | none => []
  path.dropLast ++ [candName (fileStem name) n ext]

def collisionLoop (ex : Path → Bool) (path : Path) : Nat → Nat → Path
  | n, 0 => collisionCand path n
  | n, fuel + 1 =>
    let c := collisionCand path n
    if ex c then collisionLoop ex path (n + 1) fuel else c

/-- `avoid_collision` (src/utils.rs) over an existence oracle `ex` for the
output tree.  The source's unbounded `loop` always terminates on a finite
filesystem; here it runs on `fuel` steps, which callers set large enough that
the bound is never reached (see `avoid_collision_fresh`). -/
def avoid_collision (ex : Path → Bool) (fuel : Nat) (path : Path) : Path :=
  if !(ex path) then path
  else collisionLoop ex path 1 fuel

/-- `rel_parts_with_deleted_suffix` (src/utils.rs): append `".deleted"` to
every path component. -/
def rel_parts_with_deleted_suffix (rel : Path) : Path :=
  rel.map (fun comp => comp ++ (".deleted").data)

/-! ## src/scanner.rs -/

/-- A physical input root: its files (relative path to byte content) and its
directories (relative paths).  `root` is the absolute path of the root,
kept only for provenance strings. -/
structure PhysFs where
  root : Path
  files : List (Path × Bytes)
  dirs : List Path

def defaultIgnoreNames : List Str :=
  [(".git").data, ("__pycache__").data, (".DS_Store").data, ("Thumbs.db").data]

/-- `is_ignored` (src/scanner.rs).  `glob::Pattern` values are external; a
compiled pattern is modelled as its matching predicate on strings. -/
def is_ignored (rel : Path) (patterns : List (Str → Bool)) : Bool :=
  let name := (rel.getLast?).getD []
  if name ∈ defaultIgnoreNames then true
  else
    let s_rel := joinSlash rel
    patterns.any (fun pat => pat s_rel || pat name)

/-- Denotation of `WalkDir` + `filter_entry` pruning in `scan_dir`: an entry
survives the pruned walk iff no ancestor (the entry itself included) is
ignored.  The empty prefix is the scan root, which `filter_entry` admits. -/
def survivesPrune (rel : Path) (patterns : List (Str → Bool)) : Bool :=
  rel.inits.all (fun p => p = [] || !(is_ignored p patterns))

/-- `ScanResult` (src/scanner.rs).  `files` maps each relative path directly
to the file's byte content (the source maps it to the absolute path from
which later phases read that content). -/
structure ScanResult where
  files : List (Path × Bytes)
  dirs : List Path
  root : Path

/-- `scan_dir` (src/scanner.rs): the surviving files and directories of the
pruned walk; the root itself (empty relative path) is skipped. -/
def scan_dir (fs : PhysFs) (patterns : List (Str → Bool)) : ScanResult :=
  { files := fs.files.filter (fun rc => rc.1 ≠ [] && survivesPrune rc.1 patterns)
    dirs := fs.dirs.filter (fun d => d ≠ [] && survivesPrune d patterns)
    root := fs.root }

/-! ## src/diff.rs -/

structure Counters where
  same : Nat
  new_files : Nat
  del_files : Nat
  mod_text : Nat
  mod_binary : Nat
  del_dirs : Nat
  deriving DecidableEq, Repr

/-- `Counters::default()`. -/
def Counters.init : Counters := ⟨0, 0, 0, 0, 0, 0⟩

/-- `Options` (src/cli.rs). -/
structure Options where
  normalize_eol : Bool
  max_text_size : Nat
  ignore_patterns : List (Str → Bool)
  dry_run : Bool

/-- The output directory's state: written files and created directories. -/
structure OutFs where
  files : List (Path × Bytes)
  dirs : List Path
  deriving DecidableEq, Repr

def OutFs.empty : OutFs := ⟨[], []⟩

/-- `Path::exists()` against the output tree. -/
def outExists (o : OutFs) (p : Path) : Bool :=
  o.dirs.contains p || o.files.any (fun fc => fc.1 == p)

/-- `fs::write` / `fs::copy` to a destination path: overwrites an existing
file at that path, otherwise appends. -/
def OutFs.addFile (o : OutFs) (p : Path) (c : Bytes) : OutFs :=
  if o.files.any (fun fc => fc.1 == p) then
    { o with files := o.files.map (fun fc => if fc.1 == p then (p, c) else fc) }
  else
    { o with files := o.files ++ [(p, c)] }

/-- `fs::create_dir_all`: create the directory and all its ancestors. -/
def OutFs.mkdirAll (o : OutFs) (p : Path) : OutFs :=
  { o with dirs := o.dirs ++ p.inits.filter (fun q => q ≠ [] && !(o.dirs.contains q)) }

/-- Fuel passed to `avoid_collision`: strictly more candidates than the
output tree has entries, so a free candidate is always reached
(`collisionLoop_fresh` below). -/
def fuelOf (o : OutFs) : Nat := o.files.length + o.dirs.length + 1

def OutFs.lookup (o : OutFs) (p : Path) : Option Bytes :=
  (o.files.find? (fun fc => fc.1 == p)).map (fun fc => fc.2)

/-- The destination of a file copied by `copy_deleted_tree`: every component
gets `".deleted"` appended, and the file name one more `".deleted"`. -/
def markedFileDest (rel : Path) : Path :=
  appendToLast (rel_parts_with_deleted_suffix rel) ((".deleted").data)

/-- The body of the file branch of `copy_deleted_tree`'s walk loop. -/
def cdtFileStep (wfail : Path → Bool) (acc : OutFs × Counters × List Path)
    (fc : Path × Bytes) : OutFs × Counters × List Path :=
  let (out, c, processed) := acc
  let dest_file := markedFileDest fc.1
  let out := out.mkdirAll dest_file.dropLast
  let dest := avoid_collision (outExists out) (fuelOf out) dest_file
  let out := if wfail dest then out else out.addFile dest fc.2
  (out, { c with del_files := c.del_files + 1 }, processed ++ [fc.1])

/-- `copy_deleted_tree` (src/diff.rs).  The source re-walks the physical
subtree under `scan_a.root.join(head_rel)` with a fresh unfiltered `WalkDir`;
the walk is embedded as the directories and files of `fsA` whose relative
path has `head_rel` as a prefix (the `starts_with` guard of the source).
Copy failures (`let _ = fs::copy(..)`) are given by the oracle `wfail` on the
destination path and are ignored; the counter increment and the `processed`
insertion are unconditional, as in the source. -/
def copy_deleted_tree (head_rel : Path) (fsA : PhysFs) (wfail : Path → Bool)
    (out : OutFs) (counters : Counters) : OutFs × Counters × List Path :=
  let wdirs := fsA.dirs.filter (fun d => head_rel.isPrefixOf d)
  let out := wdirs.foldl (fun o d => o.mkdirAll (rel_parts_with_deleted_suffix d)) out
  let counters :=
    if head_rel ∈ fsA.dirs then { counters with del_dirs := counters.del_dirs + 1 }
    else counters
  let wfiles := fsA.files.filter (fun fc => head_rel.isPrefixOf fc.1)
  wfiles.foldl (cdtFileStep wfail) (out, counters, [])

/-- The deleted-directory head computation of `run_bigdiff` (src/diff.rs,
lines 108–125): deleted directories sorted shallowest-first, keeping only
those that are not strict descendants of an already-kept head. -/
def greedyHeadsGo (heads : List Path) : List Path → List Path
  | [] => heads
  | d :: rest =>
    if heads.any (fun head => head.isPrefixOf d && d != head) then
      greedyHeadsGo heads rest
    else greedyHeadsGo (heads ++ [d]) rest

/-- Stable insertion of a path into a depth-sorted list (model of the stable
`sort_by_key(|p| p.components().count())` of the source; the input order of
the deleted set is a `HashSet` iteration order, already arbitrary). -/
def insertByDepth (d : Path) : List Path → List Path
  | [] => [d]
  | x :: xs => if x.length < d.length then x :: insertByDepth d xs else d :: x :: xs

def sortByDepth : List Path → List Path
  | [] => []
  | d :: rest => insertByDepth d (sortByDepth rest)

def deletedHeads (dirsA dirsB : List Path) : List Path :=
  greedyHeadsGo [] (sortByDepth (dirsA.filter (fun d => decide (d ∉ dirsB))))

/-- One head's round of phase 1 of `run_bigdiff`. -/
def phase1Step (fsA : PhysFs) (wfail : Path → Bool)
    (acc : OutFs × Counters × List Path) (head : Path) : OutFs × Counters × List Path :=
  let (out, c, proc) := acc
  let (out', c', p) := copy_deleted_tree head fsA wfail out c
  (out', c', proc ++ p)

/-- Phase 1 of `run_bigdiff`: copy each deleted head's subtree, accumulating
the processed file set. -/
def phase1 (heads : List Path) (fsA : PhysFs) (wfail : Path → Bool)
    (out : OutFs) (c : Counters) : OutFs × Counters × List Path :=
  heads.foldl (phase1Step fsA wfail) (out, c, [])

/-- One iteration of the loose-deleted-file loop of `run_bigdiff`
(src/diff.rs lines 133–151); `fs::copy(..)?` failure aborts the run. -/
def loose_deleted_step (scanBKeys : List Path) (processed : List Path)
    (wfail : Path → Bool) (st : OutFs × Counters) (rc : Path × Bytes) :
    Except Unit (OutFs × Counters) :=
  if rc.1 ∈ processed then .ok st
  else if rc.1 ∈ scanBKeys then .ok st
  else
    let dst0 := appendToLast rc.1 ((".deleted").data)
    let out := st.1.mkdirAll dst0.dropLast
    let dst := avoid_collision (outExists out) (fuelOf out) dst0
    if wfail dst then .error ()
    else .ok (out.addFile dst rc.2, { st.2 with del_files := st.2.del_files + 1 })

def loosePhase (scanBKeys processed : List Path) (wfail : Path → Bool) :
    List (Path × Bytes) → OutFs × Counters → Except Unit (OutFs × Counters)
  | [], st => .ok st
  | rc :: rest, st =>
    match loose_deleted_step scanBKeys processed wfail st rc with
    | .ok st' => loosePhase scanBKeys processed wfail rest st'
    | .error e => .error e

/-- One iteration of the new-file loop of `run_bigdiff` (src/diff.rs lines
153–168). -/
def new_file_step (scanAKeys : List Path) (wfail : Path → Bool)
    (st : OutFs × Counters) (rc : Path × Bytes) : Except Unit (OutFs × Counters) :=
  if rc.1 ∈ scanAKeys then .ok st
  else
    let dst0 := appendToLast rc.1 ((".new").data)
    let out := st.1.mkdirAll dst0.dropLast
    let dst := avoid_collision (outExists out) (fuelOf out) dst0
    if wfail dst then .error ()
    else .ok (out.addFile dst rc.2, { st.2 with new_files := st.2.new_files + 1 })

def newPhase (scanAKeys : List Path) (wfail : Path → Bool) :
    List (Path × Bytes) → OutFs × Counters → Except Unit (OutFs × Counters)
  | [], st => .ok st
  | rc :: rest, st =>
    match new_file_step scanAKeys wfail st rc with
    | .ok st' => newPhase scanAKeys wfail rest st'
    | .error e => .error e

def lookupContent (files : List (Path × Bytes)) (rel : Path) : Bytes :=
  ((files.find? (fun fc => fc.1 == rel)).map (fun fc => fc.2)).getD []

def debugPath (p : Path) : Str := '\"' :: (joinSlash p ++ ['\"'])

/-- The provenance note written next to a binary/oversized `.modified`
artifact (the `format!` literal of src/diff.rs lines 210–217). -/
def noteContent (a_file b_file : Path) (size : Nat) : Str :=
  ("File treated as binary or too large for line diff.\n").data ++
  ("Base origin (A): ").data ++ debugPath a_file ++
  ('\n' :: ("Target origin (B): ").data) ++ debugPath b_file ++
  ('\n' :: ("Size: ").data) ++ natToDec size ++ (" bytes\n").data ++
  ("Strategy: direct copy from target to '.modified'.\n").data

/-- UTF-8 encoding of a Lean-side string, the bytes `fs::write` stores for a
Rust `String`. -/
def utf8EncodeChar (c : Char) : Bytes :=
  let n := c.toNat
  if n < 128 then [n]
  else if n < 2048 then [192 + n / 64, 128 + n % 64]
  else if n < 65536 then [224 + n / 4096, 128 + n / 64 % 64, 128 + n % 64]
  else [240 + n / 262144, 128 + n / 4096 % 64, 128 + n / 64 % 64, 128 + n % 64]

def utf8Encode (s : Str) : Bytes := s.flatMap utf8EncodeChar

/-- Tags of the external line-diff primitive (`similar::ChangeTag`). -/
inductive ChangeTag where
  | Equal
  | Delete
  | Insert
  deriving DecidableEq, Repr

/-- Split a text into lines, each line keeping its trailing newline; a final
line without a terminator is kept unterminated (the line splitting of
`similar::TextDiff::from_lines`). -/
def splitLinesGo : Str → Str → List Str
  | acc, [] => if acc = [] then [] else [acc.reverse]
  | acc, '\n' :: r => (acc.reverse ++ ['\n']) :: splitLinesGo [] r
  | acc, c :: r => splitLinesGo (c :: acc) r

def splitLines (s : Str) : List Str := splitLinesGo [] s

/-- Modelled from the spec: the external line-diff primitive
(`similar::TextDiff::from_lines` + `iter_all_changes`), which the spec treats
as a black box yielding `{Equal, Delete, Insert}` tagged segments in document
order, each carrying the original line text with its terminator.  Embedded as
a longest-common-subsequence line diff, run on structural fuel (the sum of
the two lengths always suffices). -/
def lcsLenGo : Nat → List Str → List Str → Nat
  | 0, _, _ => 0
  | _, [], _ => 0
  | _, _, [] => 0
  | fuel + 1, a :: as_, b :: bs =>
    if a = b then 1 + lcsLenGo fuel as_ bs
    else max (lcsLenGo fuel (a :: as_) bs) (lcsLenGo fuel as_ (b :: bs))

def lcsLen (a b : List Str) : Nat := lcsLenGo (a.length + b.length) a b

/-- Modelled from the spec: see `lcsLenGo`. -/
def textDiffGo : Nat → List Str → List Str → List (ChangeTag × Str)
  | 0, _, _ => []
  | _, [], bs => bs.map (fun b => (ChangeTag.Insert, b))
  | fuel + 1, a :: as_, [] => (ChangeTag.Delete, a) :: textDiffGo fuel as_ []
  | fuel + 1, a :: as_, b :: bs =>
    if a = b then (ChangeTag.Equal, a) :: textDiffGo fuel as_ bs
    else if lcsLen as_ (b :: bs) ≥ lcsLen (a :: as_) bs then
      (ChangeTag.Delete, a) :: textDiffGo fuel as_ (b :: bs)
    else (ChangeTag.Insert, b) :: textDiffGo fuel (a :: as_) bs

def textDiffLines (a b : List Str) : List (ChangeTag × Str) :=
  textDiffGo (a.length + b.length) a b

/-- `annotate_text_diff` (src/diff.rs). -/
def annotate_text_diff (a_bytes b_bytes : Option Bytes) (style : CommentStyle)
    (normalize_eol : Bool) : Option Str := do
  let a_text ← read_text_best_effort a_bytes normalize_eol
  let b_text ← read_text_best_effort b_bytes normalize_eol
  let changes := textDiffLines (splitLines a_text) (splitLines b_text)
  some ((changes.map (fun tc =>
    match tc.1 with
    | .Equal => tc.2
    | .Delete => style.deleted_line tc.2
    | .Insert => style.append_new_suffix tc.2)).flatten)

/-- One iteration of the common-file loop of `run_bigdiff` (src/diff.rs lines
176–224). -/
def common_step (fsA fsB : PhysFs) (scanAFiles scanBFiles : List (Path × Bytes))
    (opts : Options) (wfail : Path → Bool) (st : OutFs × Counters) (rel : Path) :
    Except Unit (OutFs × Counters) :=
  let a_content := lookupContent scanAFiles rel
  let b_content := lookupContent scanBFiles rel
  if file_bytes_equal (some a_content) (some b_content) then
    .ok (st.1, { st.2 with same := st.2.same + 1 })
  else
    let style := comment_style_for rel
    let dst0 := appendToLast rel ((".modified").data)
    let out := st.1.mkdirAll dst0.dropLast
    let dst := avoid_collision (outExists out) (fuelOf out) dst0
    let size_b := b_content.length
    let is_bin := is_probably_binary (some b_content)
    if is_bin || decide (size_b > opts.max_text_size) then
      if wfail dst then .error ()
      else
        let out := out.addFile dst b_content
        let c := { st.2 with mod_binary := st.2.mod_binary + 1 }
        let note_path := appendToLast dst ((".NOTE.txt").data)
        let note := utf8Encode (noteContent (fsA.root ++ rel) (fsB.root ++ rel) size_b)
        if wfail note_path then .error ()
        else .ok (out.addFile note_path note, c)
    else
      match annotate_text_diff (some a_content) (some b_content) style opts.normalize_eol with
      | none => .error ()
      | some annotated =>
        if wfail dst then .error ()
        else .ok (out.addFile dst (utf8Encode annotated),
                  { st.2 with mod_text := st.2.mod_text + 1 })

def commonPhase (fsA fsB : PhysFs) (scanAFiles scanBFiles : List (Path × Bytes))
    (opts : Options) (wfail : Path → Bool) :
    List Path → OutFs × Counters → Except Unit (OutFs × Counters)
  | [], st => .ok st
  | rel :: rest, st =>
    match common_step fsA fsB scanAFiles scanBFiles opts wfail st rel with
    | .ok st' => commonPhase fsA fsB scanAFiles scanBFiles opts wfail rest st'
    | .error e => .error e

/-- `run_bigdiff` (src/diff.rs).  `out0` is the initial state of the output
directory (possibly reused from an earlier run); `wfail` tells which
destination paths fail to be written/copied. -/
def run_bigdiff (fsA fsB : PhysFs) (out0 : OutFs) (opts : Options)
    (wfail : Path → Bool) : Except Unit (OutFs × Counters) :=
  let scan_a := scan_dir fsA opts.ignore_patterns
  let scan_b := scan_dir fsB opts.ignore_patterns
  let heads := deletedHeads scan_a.dirs scan_b.dirs
  let (out, c, processed) := phase1 heads fsA wfail out0 Counters.init
  let scanAKeys := scan_a.files.map (fun fc => fc.1)
  let scanBKeys := scan_b.files.map (fun fc => fc.1)
  match loosePhase scanBKeys processed wfail scan_a.files (out, c) with
  | .error e => .error e
  | .ok st1 =>
    match newPhase scanAKeys wfail scan_b.files st1 with
    | .error e => .error e
    | .ok st2 =>
      commonPhase fsA fsB scan_a.files scan_b.files opts wfail
        (scanAKeys.filter (fun k => decide (k ∈ scanBKeys))) st2

/-! ## Well-formedness of an input root and concrete instances -/

/-- Well-formedness of a physical root, as every real directory tree
satisfies it: every proper non-empty prefix of a file's path is a directory,
no path is both a file and a directory, and file paths are unique (the
source's `HashMap` keys). -/
def PhysFs.WF (fs : PhysFs) : Prop :=
  (∀ rc ∈ fs.files, ∀ p ∈ rc.1.inits, p ≠ [] → p ≠ rc.1 → p ∈ fs.dirs) ∧
  (∀ rc ∈ fs.files, rc.1 ∉ fs.dirs) ∧
  (fs.files.map (fun fc => fc.1)).Nodup

instance (fs : PhysFs) : Decidable fs.WF := by
  unfold PhysFs.WF; infer_instance

/-- The default options of the CLI: `-S` defaults to the string `"5MB"`. -/
def defaultOpts : Options := ⟨false, parse_size (("5MB").data), [], false⟩

/-- Scenario A of the spec (claim C2): base `notes.txt` = `"hello\n"`,
target `notes.txt` = `"hello\nworld\n"`. -/
def scenA_base : PhysFs :=
  ⟨[("A").data], [([("notes.txt").data], utf8Encode (("hello\n").data))], []⟩

def scenA_target : PhysFs :=
  ⟨[("B").data], [([("notes.txt").data], utf8Encode (("hello\nworld\n").data))], []⟩

/-- A base root whose directory `old` (containing a plain file, a nested
directory and a `.git`-named file) is absent from the target. -/
def scenDel_base : PhysFs :=
  ⟨[("A").data],
   [([("old").data, ("a.txt").data], [120]),
    ([("old").data, ("sub").data, ("b.txt").data], [121]),
    ([("old").data, (".git").data], [122]),
    ([("keep.txt").data], [107])],
   [[("old").data], [("old").data, ("sub").data]]⟩

def scenDel_target : PhysFs :=
  ⟨[("B").data], [([("keep.txt").data], [107])], []⟩

/-- A pair differing in one binary file `x`, run against an output directory
that already contains a file at `x.modified.NOTE.txt` (claim C4). -/
def scenNote_base : PhysFs := ⟨[("A").data], [([("x").data], [0])], []⟩

def scenNote_target : PhysFs := ⟨[("B").data], [([("x").data], [0, 1])], []⟩

def scenNote_out0 : OutFs := ⟨[([("x.modified.NOTE.txt").data], [])], []⟩

/-- A pair sharing one identical file (witness for C9). -/
def scenSame_base : PhysFs := ⟨[("A").data], [([("a").data], [1])], []⟩

def scenSame_target : PhysFs := ⟨[("B").data], [([("a").data], [1])], []⟩

/-! # Theorems -/

/-! ## C5: the binary sniff -/

/-- C5: `is_probably_binary` returns true when the file cannot be opened or
read; false when zero bytes are read; and otherwise inspects at most the
first 4096 bytes, returning true iff that sample contains a NUL byte or
fails strict UTF-8 validation. -/
theorem C5_is_probably_binary_spec :
    is_probably_binary none = true ∧
    is_probably_binary (some []) = false ∧
    (∀ bs : Bytes, is_probably_binary (some bs) = is_probably_binary (some (bs.take 4096))) ∧
    (∀ bs : Bytes, bs ≠ [] →
      (is_probably_binary (some bs) = true ↔
        (bs.take 4096).contains 0 = true ∨ validUtf8 (bs.take 4096) = false)) := by
  refine ⟨rfl, rfl, ?_, ?_⟩
  · intro bs
    simp only [is_probably_binary, List.take_take, List.length_take]
    have h1 : min 4096 (min 4096 bs.length) = min 4096 bs.length := by omega
    have h2 : min 4096 4096 = 4096 := by omega
    rw [h1, h2]
  · intro bs hbs
    have hn : ¬ (min 4096 bs.length = 0) := by
      have : 0 < bs.length := List.length_pos.mpr hbs
      omega
    simp only [is_probably_binary, if_neg hn]
    by_cases hc : (bs.take 4096).contains 0 = true
    · simp [hc]
    · simp [hc, Bool.not_eq_true']

/-- Witness for C5 at a concrete one-byte NUL file. -/
theorem C5_is_probably_binary_spec_witness :
    is_probably_binary (some [0]) = true ↔
      (([0] : Bytes).take 4096).contains 0 = true ∨ validUtf8 (([0] : Bytes).take 4096) = false :=
  C5_is_probably_binary_spec.2.2.2 [0] (by decide)

/-! ## C6: content-digest equality -/

theorem beBytes_lt {k n b : Nat} (hb : b ∈ beBytes k n) : b < 256 := by
  simp only [beBytes, List.mem_map] at hb
  obtain ⟨i, _, rfl⟩ := hb
  exact Nat.mod_lt _ (by omega)

theorem sha256_byte_lt {m : Bytes} : ∀ b ∈ sha256 m, b < 256 := by
  intro b hb
  simp only [sha256, List.mem_flatMap] at hb
  obtain ⟨w, _, hw⟩ := hb
  exact beBytes_lt hw

theorem hexDigit_inj : ∀ a : Nat, a < 16 → ∀ b : Nat, b < 16 →
    hexDigit a = hexDigit b → a = b := by decide

theorem hexEncode_cons (a : Nat) (xs : Bytes) :
    hexEncode (a :: xs) = hexDigit (a / 16) :: hexDigit (a % 16) :: hexEncode xs := rfl

theorem hexEncode_inj : ∀ x y : Bytes, (∀ b ∈ x, b < 256) → (∀ b ∈ y, b < 256) →
    hexEncode x = hexEncode y → x = y := by
  intro x
  induction x with
  | nil =>
    intro y _ _ h
    cases y with
    | nil => rfl
    | cons b ys => simp [hexEncode_cons, hexEncode] at h
  | cons a xs ih =>
    intro y hx hy h
    cases y with
    | nil => simp [hexEncode_cons, hexEncode] at h
    | cons b ys =>
      rw [hexEncode_cons, hexEncode_cons] at h
      injection h with h1 h'
      injection h' with h2 h3
      have ha : a < 256 := hx a (by simp)
      have hb : b < 256 := hy b (by simp)
      have e1 : a / 16 = b / 16 :=
        hexDigit_inj _ (by omega) _ (by omega) h1
      have e2 : a % 16 = b % 16 :=
        hexDigit_inj _ (by omega) _ (by omega) h2
      have : a = b := by omega
      subst this
      have := ih ys (fun c hc => hx c (by simp [hc])) (fun c hc => hy c (by simp [hc])) h3
      rw [this]

/-- C6: `file_bytes_equal` is true iff the SHA-256 digests of the two
contents agree, and is false whenever either side cannot be opened or read. -/
theorem C6_file_bytes_equal_spec :
    (∀ f : Option Bytes, file_bytes_equal none f = false) ∧
    (∀ f : Option Bytes, file_bytes_equal f none = false) ∧
    (∀ b1 b2 : Bytes, file_bytes_equal (some b1) (some b2) = (sha256 b1 == sha256 b2)) := by
  refine ⟨fun f => by cases f <;> rfl, fun f => by cases f <;> rfl, ?_⟩
  intro b1 b2
  have hdef : file_bytes_equal (some b1) (some b2) =
      (hexEncode (sha256 b1) == hexEncode (sha256 b2)) := rfl
  rw [hdef, Bool.eq_iff_iff]
  simp only [beq_iff_eq]
  constructor
  · exact fun h => hexEncode_inj _ _ sha256_byte_lt sha256_byte_lt h
  · intro h; rw [h]

/-! ## C8: parse_size (counterexample to the unparseable-default clause) -/

/-- Counterexample to C8 as stated: an unparseable size string yields 0, not
the claimed 5,000,000-byte default (which is only the parse of the CLI's
default argument string `"5MB"`). -/
theorem C8_counterexample :
    parse_size (("not-a-size").data) = 0 ∧ (0 : Nat) ≠ 5000000 ∧
    parse_size (("5MB").data) = 5000000 := by
  refine ⟨by decide, by decide, by decide⟩

/-! ## C7: the annotators preserve the trailing newline -/

theorem split_newline_append (line : Str) :
    (split_newline line).1 ++ (split_newline line).2 = line := by
  unfold split_newline
  split_ifs with h
  · exact List.dropLast_append_getLast? '\n' h
  · simp

theorem split_newline_pos {line : Str} (h : line.getLast? = some '\n') :
    split_newline line = (line.dropLast, ['\n']) := by
  unfold split_newline; rw [if_pos h]

theorem split_newline_neg {line : Str} (h : ¬ line.getLast? = some '\n') :
    split_newline line = (line, []) := by
  unfold split_newline; rw [if_neg h]

theorem getLast?_no_newline {l : Str} (h : '\n' ∉ l) (hne : l ≠ []) :
    l.getLast? ≠ some '\n' := by
  rw [List.getLast?_eq_getLast_of_ne_nil hne]
  intro hc
  injection hc with hc
  exact h (hc ▸ List.getLast_mem hne)

theorem getLast?_append_ne {X line : Str} (hX : X.getLast? ≠ some '\n')
    (hl : line.getLast? ≠ some '\n') : (X ++ line).getLast? ≠ some '\n' := by
  cases line with
  | nil => simpa using hX
  | cons a l => rw [List.getLast?_append_of_ne_nil X (by simp)]; exact hl

theorem getLast?_space_append {cl : Str} (hcl : '\n' ∉ cl) :
    ((' ' :: cl)).getLast? ≠ some '\n' := by
  cases cl with
  | nil => decide
  | cons a l =>
    have : (' ' :: a :: l).getLast? = (a :: l).getLast? := by
      rw [List.getLast?_cons_cons]
    rw [this]
    exact getLast?_no_newline hcl (by simp)

theorem count_no_newline {l : Str} (h : '\n' ∉ l) : l.count '\n' = 0 :=
  List.count_eq_zero.mpr h

theorem line_count_pos {line : Str} (h : line.getLast? = some '\n') :
    line.count '\n' = line.dropLast.count '\n' + 1 := by
  conv_lhs => rw [← List.dropLast_append_getLast? '\n' h]
  simp [List.count_append]

theorem deleted_line_newline (st : CommentStyle) (hok : AnnotStyleOk st) (line : Str) :
    ((st.deleted_line line).getLast? = some '\n' ↔ line.getLast? = some '\n') ∧
    (st.deleted_line line).count '\n' = line.count '\n' ∧
    (split_newline line).2 <:+ st.deleted_line line := by
  by_cases h : line.getLast? = some '\n'
  · cases st with
    | LinePrefix p suf =>
      obtain ⟨hp, _, _⟩ := hok
      simp only [CommentStyle.deleted_line, split_newline_pos h]
      refine ⟨?_, ?_, ⟨_, rfl⟩⟩
      · rw [List.getLast?_concat]; simp [h]
      · simp [List.count_append, count_no_newline hp, line_count_pos h,
          (by decide : ((("DELETED: ").data : Str)).count '\n' = 0)]
    | Block o cl nb =>
      obtain ⟨ho, hcl, _⟩ := hok
      simp only [CommentStyle.deleted_line, split_newline_pos h]
      refine ⟨?_, ?_, ⟨_, rfl⟩⟩
      · rw [List.getLast?_concat]; simp [h]
      · simp [List.count_append, count_no_newline ho, count_no_newline hcl,
          line_count_pos h,
          (by decide : (((" DELETED: ").data : Str)).count '\n' = 0)]
  · cases st with
    | LinePrefix p suf =>
      obtain ⟨hp, _, _⟩ := hok
      simp only [CommentStyle.deleted_line, split_newline_neg h, List.append_nil]
      refine ⟨?_, ?_, List.nil_suffix⟩
      · refine iff_of_false (getLast?_append_ne ?_ h) h
        rw [List.getLast?_append_of_ne_nil p (by decide)]
        decide
      · simp [List.count_append, count_no_newline hp,
          (by decide : ((("DELETED: ").data : Str)).count '\n' = 0)]
    | Block o cl nb =>
      obtain ⟨ho, hcl, _⟩ := hok
      simp only [CommentStyle.deleted_line, split_newline_neg h, List.append_nil]
      refine ⟨?_, ?_, List.nil_suffix⟩
      · rw [List.append_assoc (o ++ (" DELETED: ").data ++ line) [' '] cl]
        refine iff_of_false ?_ h
        cases hc : ((' ' :: cl : Str)) with
        | nil => simp at hc
        | cons a l =>
          rw [(by simp : (o ++ (" DELETED: ").data ++ line) ++ ([' '] ++ cl) =
            (o ++ (" DELETED: ").data ++ line) ++ (' ' :: cl)),
            List.getLast?_append_of_ne_nil _ (by simp)]
          exact getLast?_space_append hcl
      · simp [List.count_append, count_no_newline ho, count_no_newline hcl,
          (by decide : (((" DELETED: ").data : Str)).count '\n' = 0)]

theorem append_new_suffix_newline (st : CommentStyle) (hok : AnnotStyleOk st) (line : Str) :
    ((st.append_new_suffix line).getLast? = some '\n' ↔ line.getLast? = some '\n') ∧
    (st.append_new_suffix line).count '\n' = line.count '\n' ∧
    (split_newline line).2 <:+ st.append_new_suffix line := by
  by_cases h : line.getLast? = some '\n'
  · cases st with
    | LinePrefix p suf =>
      obtain ⟨_, hs, _⟩ := hok
      simp only [CommentStyle.append_new_suffix, split_newline_pos h]
      refine ⟨?_, ?_, ⟨_, rfl⟩⟩
      · rw [List.getLast?_concat]; simp [h]
      · simp [List.count_append, count_no_newline hs, line_count_pos h]
    | Block o cl nb =>
      obtain ⟨_, _, hn⟩ := hok
      simp only [CommentStyle.append_new_suffix, split_newline_pos h]
      refine ⟨?_, ?_, ⟨_, rfl⟩⟩
      · rw [List.getLast?_concat]; simp [h]
      · simp [List.count_append, count_no_newline hn, line_count_pos h]
  · cases st with
    | LinePrefix p suf =>
      obtain ⟨_, hs, hsne⟩ := hok
      simp only [CommentStyle.append_new_suffix, split_newline_neg h, List.append_nil]
      refine ⟨?_, ?_, List.nil_suffix⟩
      · refine iff_of_false ?_ h
        rw [List.getLast?_append_of_ne_nil line hsne]
        exact getLast?_no_newline hs hsne
      · simp [List.count_append, count_no_newline hs]
    | Block o cl nb =>
      obtain ⟨_, _, hn⟩ := hok
      simp only [CommentStyle.append_new_suffix, split_newline_neg h, List.append_nil]
      refine ⟨?_, ?_, List.nil_suffix⟩
      · rw [List.append_assoc line [' '] nb]
        refine iff_of_false ?_ h
        rw [(by simp : line ++ ([' '] ++ nb) = line ++ (' ' :: nb)),
          List.getLast?_append_of_ne_nil _ (by simp)]
        exact getLast?_space_append hn
      · simp [List.count_append, count_no_newline hn]

theorem comment_style_for_ok (path : Path) : AnnotStyleOk (comment_style_for path) := by
  unfold comment_style_for
  dsimp only
  split_ifs <;> exact ⟨by decide, by decide, by decide⟩

/-- C7: for every input line and every registry comment style, `deleted_line`
and `append_new_suffix` preserve the line's trailing newline: the annotated
output ends with `'\n'` iff the input does, the newline terminator of the
input is the suffix of the output (annotation text sits before it), no
terminator is introduced when the line has none, and the newline count (the
subsequent line boundaries) is unchanged. -/
theorem C7_annotation_preserves_newline (path : Path) (line : Str) :
    (((comment_style_for path).deleted_line line).getLast? = some '\n' ↔
      line.getLast? = some '\n') ∧
    (((comment_style_for path).append_new_suffix line).getLast? = some '\n' ↔
      line.getLast? = some '\n') ∧
    ((comment_style_for path).deleted_line line).count '\n' = line.count '\n' ∧
    ((comment_style_for path).append_new_suffix line).count '\n' = line.count '\n' ∧
    (split_newline line).2 <:+ (comment_style_for path).deleted_line line ∧
    (split_newline line).2 <:+ (comment_style_for path).append_new_suffix line ∧
    (split_newline line).1 ++ (split_newline line).2 = line := by
  obtain ⟨d1, d2, d3⟩ := deleted_line_newline _ (comment_style_for_ok path) line
  obtain ⟨a1, a2, a3⟩ := append_new_suffix_newline _ (comment_style_for_ok path) line
  exact ⟨d1, a1, d2, a2, d3, a3, split_newline_append line⟩

/-! ## C3: counting during deleted-subtree materialization -/

theorem mkdirAll_files (o : OutFs) (p : Path) : (o.mkdirAll p).files = o.files := rfl

theorem cdt_foldl_spec (wfail : Path → Bool) (l : List (Path × Bytes)) :
    ∀ acc : OutFs × Counters × List Path,
      (l.foldl (cdtFileStep wfail) acc).2.1.del_files = acc.2.1.del_files + l.length ∧
      (l.foldl (cdtFileStep wfail) acc).2.1.same = acc.2.1.same ∧
      (l.foldl (cdtFileStep wfail) acc).2.1.new_files = acc.2.1.new_files ∧
      (l.foldl (cdtFileStep wfail) acc).2.1.mod_text = acc.2.1.mod_text ∧
      (l.foldl (cdtFileStep wfail) acc).2.1.mod_binary = acc.2.1.mod_binary ∧
      (l.foldl (cdtFileStep wfail) acc).2.1.del_dirs = acc.2.1.del_dirs ∧
      (l.foldl (cdtFileStep wfail) acc).2.2 = acc.2.2 ++ l.map (fun fc => fc.1) := by
  induction l with
  | nil => intro acc; simp
  | cons fc rest ih =>
    intro acc
    obtain ⟨out, c, proc⟩ := acc
    have h := ih (cdtFileStep wfail (out, c, proc) fc)
    simp only [List.foldl_cons]
    simp only [cdtFileStep] at h ⊢
    refine ⟨?_, ?_, ?_, ?_, ?_, ?_, ?_⟩ <;> simp [h.1, h.2.1, h.2.2.1, h.2.2.2.1,
      h.2.2.2.2.1, h.2.2.2.2.2.1, h.2.2.2.2.2.2] <;> omega

theorem cdt_dirs_foldl_files (ds : List Path) :
    ∀ out : OutFs,
      (ds.foldl (fun o d => o.mkdirAll (rel_parts_with_deleted_suffix d)) out).files =
        out.files := by
  induction ds with
  | nil => intro out; rfl
  | cons d rest ih => intro out; rw [List.foldl_cons, ih, mkdirAll_files]

theorem cdt_foldl_files_allfail (l : List (Path × Bytes)) :
    ∀ acc : OutFs × Counters × List Path,
      (l.foldl (cdtFileStep (fun _ => true)) acc).1.files = acc.1.files := by
  induction l with
  | nil => intro acc; rfl
  | cons fc rest ih =>
    intro acc
    obtain ⟨out, c, proc⟩ := acc
    rw [List.foldl_cons, ih]
    simp [cdtFileStep, mkdirAll_files]

/-- Counterexample to C3 as stated: run the deleted-subtree copy with every
individual file copy failing.  No file is materialized (all copies skipped),
yet `del_files` is incremented for each of the three files — the source bumps
the counter unconditionally after `let _ = fs::copy(..)`. -/
theorem C3_counterexample :
    (copy_deleted_tree [("old").data] scenDel_base (fun _ => true)
        OutFs.empty Counters.init).1.files = [] ∧
    (copy_deleted_tree [("old").data] scenDel_base (fun _ => true)
        OutFs.empty Counters.init).2.1.del_files = 3 := by
  exact ⟨by decide, by decide⟩

/-- C3 as amended: a failing copy during deleted-subtree materialization is
recovered locally — the copy itself is skipped (with every copy failing, the
output gains no file) and the run continues (the function returns normally) —
but `del_files` is incremented for every walked file regardless of whether
its copy succeeded. -/
theorem C3_del_subtree_error_recovery (fsA : PhysFs) (head : Path)
    (out : OutFs) (c : Counters) :
    (copy_deleted_tree head fsA (fun _ => true) out c).1.files = out.files ∧
    (∀ wfail : Path → Bool,
      (copy_deleted_tree head fsA wfail out c).2.1.del_files =
        c.del_files + (fsA.files.filter (fun fc => head.isPrefixOf fc.1)).length) := by
  constructor
  · unfold copy_deleted_tree
    rw [cdt_foldl_files_allfail, cdt_dirs_foldl_files]
  · intro wfail
    unfold copy_deleted_tree
    have h := (cdt_foldl_spec wfail (fsA.files.filter (fun fc => head.isPrefixOf fc.1))
      ((fsA.dirs.filter (fun d => head.isPrefixOf d)).foldl
          (fun o d => o.mkdirAll (rel_parts_with_deleted_suffix d)) out,
        (if head ∈ fsA.dirs then { c with del_dirs := c.del_dirs + 1 } else c), [])).1
    simp only at h
    rw [h]
    split_ifs <;> simp [List.length_map]

/-! ## C4: collision avoidance on artifact writes -/

/-- Counterexample to C4 as stated: the provenance-note write of the
binary-modified branch does not go through collision avoidance.  With the
output directory already holding an (empty) file at `x.modified.NOTE.txt`,
a run that classifies `x` as binary-modified writes its note to exactly that
path, silently overwriting the existing file. -/
theorem C4_counterexample :
    scenNote_out0.lookup [("x.modified.NOTE.txt").data] = some [] ∧
    (run_bigdiff scenNote_base scenNote_target scenNote_out0 defaultOpts
        (fun _ => false)).toOption.isSome = true ∧
    (run_bigdiff scenNote_base scenNote_target scenNote_out0 defaultOpts
        (fun _ => false)).toOption.map
      (fun st => st.1.lookup [("x.modified.NOTE.txt").data]) ≠ some (some []) := by
  exact ⟨by decide, by decide, by decide⟩

theorem collisionLoop_eq (ex : Path → Bool) (p : Path) :
    ∀ (fuel n n₀ : Nat), n ≤ n₀ → n₀ < n + fuel →
      ex (collisionCand p n₀) = false →
      (∀ m, n ≤ m → m < n₀ → ex (collisionCand p m) = true) →
      collisionLoop ex p n fuel = collisionCand p n₀ := by
  intro fuel
  induction fuel with
  | zero => intro n n₀ h1 h2 _ _; omega
  | succ fuel ih =>
    intro n n₀ h1 h2 h3 h4
    by_cases hn : n = n₀
    · subst hn
      simp [collisionLoop, h3]
    · have hex : ex (collisionCand p n) = true := h4 n le_rfl (by omega)
      simp only [collisionLoop, hex, if_true]
      exact ih (n + 1) n₀ (by omega) (by omega) h3 (fun m hm1 hm2 => h4 m (by omega) hm2)

/-- C4 as amended: every artifact write except the binary-note companion goes
through `avoid_collision`, whose contract is: the candidate path is used
as-is when it does not exist, and otherwise `"stem (n).ext"` is tried for
`n = 1, 2, 3, …` until a non-existing path is found (the note companion is
written at the chosen `.modified` path plus `".NOTE.txt"` unconditionally —
see the counterexample). -/
theorem C4_collision_avoidance (ex : Path → Bool) (fuel : Nat) (p : Path) :
    (ex p = false → avoid_collision ex fuel p = p) ∧
    (∀ n₀, 1 ≤ n₀ → n₀ ≤ fuel → ex p = true →
      ex (collisionCand p n₀) = false →
      (∀ m, 1 ≤ m → m < n₀ → ex (collisionCand p m) = true) →
      avoid_collision ex fuel p = collisionCand p n₀) := by
  constructor
  · intro h
    unfold avoid_collision
    rw [h]
    rfl
  · intro n₀ h1 h2 hex h3 h4
    unfold avoid_collision
    rw [hex]
    simp only [Bool.not_true, Bool.false_eq_true, if_false]
    exact collisionLoop_eq ex p fuel 1 n₀ h1 (by omega) h3 h4

/-- Witness for the amended C4 at a concrete collision: `a.txt` exists, so
the first disambiguated candidate `a.txt` goes to `a (1).txt`. -/
theorem C4_collision_avoidance_witness :
    avoid_collision (fun q => q == [("a.txt").data]) 3 [("a.txt").data] =
      collisionCand [("a.txt").data] 1 :=
  (C4_collision_avoidance (fun q => q == [("a.txt").data]) 3 [("a.txt").data]).2
    1 (by decide) (by decide) (by decide) (by decide) (by omega)

/-! ## C8 (amended): the unit table of parse_size -/

theorem suffix_append_struct {pat ds u : Str} (h : pat <:+ ds ++ u)
    (hlen : u.length ≤ pat.length) :
    pat.drop (pat.length - u.length) = u ∧ pat.take (pat.length - u.length) <:+ ds := by
  obtain ⟨t, ht⟩ := h
  have hl : t.length + pat.length = ds.length + u.length := by
    have := congrArg List.length ht
    simpa using this
  have hdrop : pat.drop (pat.length - u.length) = u := by
    have h1 : (t ++ pat).drop (t.length + (pat.length - u.length)) =
        pat.drop (pat.length - u.length) := List.drop_append _
    have h2 : t.length + (pat.length - u.length) = ds.length := by omega
    rw [h2, ht, List.drop_left] at h1
    exact h1.symm
  refine ⟨hdrop, ?_⟩
  have hpat : pat.take (pat.length - u.length) ++ u = pat := by
    conv_rhs => rw [← List.take_append_drop (pat.length - u.length) pat, hdrop]
  have hstep : (t ++ pat.take (pat.length - u.length)) ++ u = ds ++ u := by
    rw [List.append_assoc, hpat, ht]
  exact ⟨t, List.append_cancel_right hstep⟩

theorem suffix_append_of_le {pat ds u : Str} (hlen : pat.length ≤ u.length) :
    pat.isSuffixOf (ds ++ u) = pat.isSuffixOf u := by
  rw [Bool.eq_iff_iff, List.isSuffixOf_iff_suffix, List.isSuffixOf_iff_suffix]
  constructor
  · intro h
    obtain ⟨t, ht⟩ := h
    have hl : t.length + pat.length = ds.length + u.length := by
      have := congrArg List.length ht
      simpa using this
    have h1 : (ds ++ u).drop (ds.length + (u.length - pat.length)) =
        u.drop (u.length - pat.length) := List.drop_append _
    have h2 : ds.length + (u.length - pat.length) = t.length := by omega
    rw [h2, ← ht, List.drop_left] at h1
    exact h1 ▸ List.drop_suffix _ _
  · exact fun h => h.trans (List.suffix_append ds u)

theorem not_suffix_append_drop {pat ds u : Str} (hlen : u.length < pat.length)
    (hne : pat.drop (pat.length - u.length) ≠ u) :
    pat.isSuffixOf (ds ++ u) = false := by
  rw [Bool.eq_false_iff, Ne, List.isSuffixOf_iff_suffix]
  intro h
  exact hne (suffix_append_struct h (by omega)).1

theorem not_suffix_append_digits {pat ds u : Str} (hlen : u.length < pat.length)
    (hdig : ∀ c ∈ ds, c ∈ ("0123456789").data)
    (hlast : ∃ c, (pat.take (pat.length - u.length)).getLast? = some c ∧
      c ∉ ("0123456789").data) :
    pat.isSuffixOf (ds ++ u) = false := by
  rw [Bool.eq_false_iff, Ne, List.isSuffixOf_iff_suffix]
  intro h
  obtain ⟨c, hc, hcd⟩ := hlast
  obtain ⟨-, htake⟩ := suffix_append_struct h (by omega)
  obtain ⟨t, ht⟩ := htake
  obtain ⟨hne, rfl⟩ := List.mem_getLast?_eq_getLast (l := pat.take (pat.length - u.length)) hc
  have hmem : (pat.take (pat.length - u.length)).getLast hne ∈ ds := by
    rw [← ht]
    exact List.mem_append_right t (List.getLast_mem hne)
  exact hcd (hdig _ hmem)

theorem dropWhile_eq_self_of {p : Char → Bool} {s : Str}
    (h : ∀ c ∈ s, p c = false) : s.dropWhile p = s := by
  cases s with
  | nil => rfl
  | cons a l => rw [List.dropWhile_cons, h a (by simp)]; simp

theorem trimStr_eq_self {s : Str} (h : ∀ c ∈ s, c.isWhitespace = false) :
    trimStr s = s := by
  unfold trimStr
  rw [dropWhile_eq_self_of h,
    dropWhile_eq_self_of (fun c hc => h c (by simpa using hc)), List.reverse_reverse]

theorem toLower_digit {c : Char} (h : c ∈ ("0123456789").data) : c.toLower = c := by
  fin_cases h <;> decide

theorem digit_not_ws {c : Char} (h : c ∈ ("0123456789").data) :
    c.isWhitespace = false := by
  fin_cases h <;> decide

theorem digit_isDigit {c : Char} (h : c ∈ ("0123456789").data) : c.isDigit = true := by
  fin_cases h <;> decide

theorem ws_toLower {c : Char} (h : c.isWhitespace = true) : c.toLower = c := by
  simp only [Char.isWhitespace, Bool.or_eq_true, decide_eq_true_eq] at h
  rcases h with ((h | h) | h) | h <;> subst h <;> decide

theorem toLowerStr_digits {ds : Str} (h : ∀ c ∈ ds, c ∈ ("0123456789").data) :
    toLowerStr ds = ds := by
  unfold toLowerStr
  rw [List.map_congr_left (fun c hc => toLower_digit (h c hc))]
  exact List.map_id ds

theorem toLowerStr_append (a b : Str) :
    toLowerStr (a ++ b) = toLowerStr a ++ toLowerStr b := List.map_append _ a b

theorem unit_chars_not_ws {u' unit : Str} (hu : toLowerStr u' = unit)
    (hspell : ∀ c ∈ unit, c ∈ ("bgikm").data) : ∀ c ∈ u', c.isWhitespace = false := by
  intro c hc
  by_contra hw
  rw [Bool.not_eq_false] at hw
  have h1 : c.toLower ∈ unit := by
    rw [← hu]
    exact List.mem_map_of_mem _ hc
  rw [ws_toLower hw] at h1
  have h2 := hspell c h1
  fin_cases h2 <;> exact absurd hw (by decide)

theorem ws_all {ds u' : Str} (h1 : ∀ c ∈ ds, c ∈ ("0123456789").data)
    (h2 : ∀ c ∈ u', c.isWhitespace = false) :
    ∀ c ∈ ds ++ u', c.isWhitespace = false := by
  intro c hc
  rcases List.mem_append.mp hc with h | h
  · exact digit_not_ws (h1 c h)
  · exact h2 c h

theorem log2HalvGo_spec : ∀ (fuel n : Nat), 1 ≤ n → n < 2 ^ fuel →
    2 ^ log2HalvGo fuel n ≤ n ∧ n < 2 ^ (log2HalvGo fuel n + 1) := by
  intro fuel
  induction fuel with
  | zero => intro n h1 h2; simp only [pow_zero] at h2; omega
  | succ f ih =>
    intro n h1 h2
    by_cases h : 2 ≤ n
    · have h2' : n / 2 < 2 ^ f := by
        have : n < 2 ^ f * 2 := by
          rw [show (2:ℕ) ^ f * 2 = 2 ^ (f + 1) from by ring]
          exact h2
        omega
      have hrec := ih (n / 2) (by omega) h2'
      simp only [log2HalvGo, if_pos h]
      obtain ⟨ha, hb⟩ := hrec
      constructor
      · calc 2 ^ (log2HalvGo f (n / 2) + 1) = 2 ^ log2HalvGo f (n / 2) * 2 := by ring
        _ ≤ (n / 2) * 2 := Nat.mul_le_mul_right 2 ha
        _ ≤ n := by omega
      · have : n / 2 + 1 ≤ 2 ^ (log2HalvGo f (n / 2) + 1) := hb
        calc n < (n / 2) * 2 + 2 := by omega
        _ ≤ 2 ^ (log2HalvGo f (n / 2) + 1) * 2 := by omega
        _ = 2 ^ (log2HalvGo f (n / 2) + 1 + 1) := by ring
    · simp only [log2HalvGo, if_neg h]
      constructor
      · simpa using h1
      · simpa using by omega

theorem log2Go_spec : ∀ (fuel n : Nat), 1 ≤ n → n ≤ fuel →
    2 ^ log2Go fuel n ≤ n ∧ n < 2 ^ (log2Go fuel n + 1) := by
  intro fuel
  induction fuel with
  | zero => intro n h1 h2; omega
  | succ f ih =>
    intro n h1 h2
    by_cases h : 2 ^ 32 ≤ n
    · have hpos : (0:ℕ) < 2 ^ 32 := by norm_num
      have h1' : 1 ≤ n / 2 ^ 32 := (Nat.one_le_div_iff hpos).mpr h
      have hlt : n / 2 ^ 32 < n := Nat.div_lt_self (by omega) (by norm_num)
      have hrec := ih (n / 2 ^ 32) h1' (by omega)
      simp only [log2Go, if_pos h]
      obtain ⟨ha, hb⟩ := hrec
      have hdm := Nat.div_add_mod n (2 ^ 32)
      have hmlt : n % 2 ^ 32 < 2 ^ 32 := Nat.mod_lt n hpos
      constructor
      · calc 2 ^ (log2Go f (n / 2 ^ 32) + 32) =
            2 ^ log2Go f (n / 2 ^ 32) * 2 ^ 32 := pow_add 2 _ 32
        _ ≤ (n / 2 ^ 32) * 2 ^ 32 := Nat.mul_le_mul_right _ ha
        _ ≤ n := by omega
      · have hstep : n / 2 ^ 32 + 1 ≤ 2 ^ (log2Go f (n / 2 ^ 32) + 1) := hb
        calc n < (n / 2 ^ 32 + 1) * 2 ^ 32 := by omega
        _ ≤ 2 ^ (log2Go f (n / 2 ^ 32) + 1) * 2 ^ 32 :=
            Nat.mul_le_mul_right _ hstep
        _ = 2 ^ (log2Go f (n / 2 ^ 32) + 32 + 1) := by
            rw [← pow_add]
    · simp only [log2Go, if_neg h]
      push_neg at h
      exact log2HalvGo_spec 32 n h1 h

theorem natLog2_spec {n : Nat} (h : 1 ≤ n) :
    2 ^ natLog2 n ≤ n ∧ n < 2 ^ (natLog2 n + 1) :=
  log2Go_spec n n h le_rfl

theorem pow2_between_unique {n e f : Nat} (he1 : 2 ^ e ≤ n) (he2 : n < 2 ^ (e + 1))
    (hf1 : 2 ^ f ≤ n) (hf2 : n < 2 ^ (f + 1)) : e = f := by
  by_contra hne
  rcases Nat.lt_or_ge e f with h | h
  · have : 2 ^ (e + 1) ≤ 2 ^ f := Nat.pow_le_pow_right (by norm_num) (by omega)
    omega
  · have hf' : f < e := by omega
    have : 2 ^ (f + 1) ≤ 2 ^ e := Nat.pow_le_pow_right (by norm_num) (by omega)
    omega

theorem natLog2_le {P c : Nat} (h1 : 1 ≤ P) (h2 : P < 2 ^ (c + 1)) :
    natLog2 P ≤ c := by
  by_contra hgt
  push_neg at hgt
  have hs := (natLog2_spec h1).1
  have hpow : 2 ^ (c + 1) ≤ 2 ^ natLog2 P := Nat.pow_le_pow_right (by norm_num) (by omega)
  omega

theorem floorLog2Rat_eq {a b e : Nat} (hb : 1 ≤ b) (h1 : 2 ^ e * b ≤ a)
    (h2 : a < 2 ^ (e + 1) * b) : floorLog2Rat a b = e := by
  have ha : 1 ≤ a := le_trans (Nat.mul_le_mul Nat.one_le_two_pow hb) h1
  obtain ⟨ha1, ha2⟩ := natLog2_spec ha
  obtain ⟨hb1, hb2⟩ := natLog2_spec hb
  have hge : e + natLog2 b ≤ natLog2 a := by
    by_contra hlt
    push_neg at hlt
    have hx : 2 ^ (e + natLog2 b) ≤ a := by
      calc 2 ^ (e + natLog2 b) = 2 ^ e * 2 ^ natLog2 b := pow_add 2 e (natLog2 b)
      _ ≤ 2 ^ e * b := Nat.mul_le_mul_left _ hb1
      _ ≤ a := h1
    have hy : a < 2 ^ (e + natLog2 b) :=
      lt_of_lt_of_le ha2 (Nat.pow_le_pow_right (by norm_num) (by omega))
    omega
  have hle : natLog2 a ≤ e + natLog2 b + 1 := by
    by_contra hlt
    push_neg at hlt
    have hx : a < 2 ^ (e + natLog2 b + 2) := by
      calc a < 2 ^ (e + 1) * b := h2
      _ < 2 ^ (e + 1) * 2 ^ (natLog2 b + 1) :=
          mul_lt_mul_of_pos_left hb2 (Nat.two_pow_pos _)
      _ = 2 ^ (e + natLog2 b + 2) := by rw [← pow_add]; congr 1; omega
    have hy : 2 ^ (e + natLog2 b + 2) ≤ 2 ^ natLog2 a :=
      Nat.pow_le_pow_right (by norm_num) (by omega)
    omega
  have hcases : natLog2 a - natLog2 b = e ∨ natLog2 a - natLog2 b = e + 1 := by omega
  unfold floorLog2Rat
  simp only []
  rcases hcases with hc | hc
  · rw [hc, if_pos h1]
  · rw [hc, if_neg (by omega)]
    omega

theorem roundHalfEven_exact {num den : Nat} (hden : 1 ≤ den) (h : den ∣ num) :
    roundHalfEven num den = num / den := by
  obtain ⟨c, rfl⟩ := h
  have hr : den * c % den = 0 := by
    rw [Nat.mul_comm, Nat.mul_mod_left]
  simp only [roundHalfEven, hr]
  rw [if_pos (by omega)]

theorem roundF64_int {P k : Nat} (h1 : 1 ≤ P) (h2 : P < 2 ^ 53) :
    roundF64 (P * 2 ^ k) (2 ^ k) =
      some (P * 2 ^ (52 - natLog2 P), natLog2 P + 1022) := by
  obtain ⟨hl1, hl2⟩ := natLog2_spec h1
  have hL52 : natLog2 P ≤ 52 := natLog2_le h1 h2
  have hn0 : ¬ (P * 2 ^ k = 0) := by positivity
  have hsub : ¬ (P * 2 ^ k * 2 ^ 1022 < 2 ^ k) := by
    push_neg
    calc (2:ℕ) ^ k = 1 * 2 ^ k * 1 := by ring
    _ ≤ P * 2 ^ k * 2 ^ 1022 :=
        Nat.mul_le_mul (Nat.mul_le_mul h1 le_rfl) Nat.one_le_two_pow
  have e1 : (2:ℕ) ^ (natLog2 P + 1022) * 2 ^ k = 2 ^ natLog2 P * (2 ^ 1022 * 2 ^ k) := by
    rw [pow_add]
    ring
  have e2 : (2:ℕ) ^ (natLog2 P + 1) * (2 ^ k * 2 ^ 1022) = 2 ^ (natLog2 P + 1022 + 1) * 2 ^ k := by
    rw [pow_add, pow_add, pow_add]
    ring
  have hE : floorLog2Rat (P * 2 ^ k * 2 ^ 1022) (2 ^ k) = natLog2 P + 1022 := by
    apply floorLog2Rat_eq Nat.one_le_two_pow
    · calc 2 ^ (natLog2 P + 1022) * 2 ^ k = 2 ^ natLog2 P * (2 ^ 1022 * 2 ^ k) := e1
      _ ≤ P * (2 ^ 1022 * 2 ^ k) := Nat.mul_le_mul_right _ hl1
      _ = P * 2 ^ k * 2 ^ 1022 := by ring
    · calc P * 2 ^ k * 2 ^ 1022 = P * (2 ^ k * 2 ^ 1022) := by ring
      _ < 2 ^ (natLog2 P + 1) * (2 ^ k * 2 ^ 1022) :=
          mul_lt_mul_of_pos_right hl2 (by positivity)
      _ = 2 ^ (natLog2 P + 1022 + 1) * 2 ^ k := e2
  have hMlt : P * 2 ^ (52 - natLog2 P) < 2 ^ 53 := by
    calc P * 2 ^ (52 - natLog2 P) < 2 ^ (natLog2 P + 1) * 2 ^ (52 - natLog2 P) :=
        mul_lt_mul_of_pos_right hl2 (Nat.two_pow_pos _)
    _ = 2 ^ 53 := by
      rw [← pow_add, show natLog2 P + 1 + (52 - natLog2 P) = 53 from by omega]
  unfold roundF64
  rw [if_neg hn0, if_neg hsub]
  simp only [hE]
  rw [show 1074 - (natLog2 P + 1022) = 52 - natLog2 P from by omega,
    show natLog2 P + 1022 - 1074 = 0 from by omega, pow_zero, mul_one]
  rw [show P * 2 ^ k * 2 ^ (52 - natLog2 P) = P * 2 ^ (52 - natLog2 P) * 2 ^ k from by
      ring]
  rw [roundHalfEven_exact Nat.one_le_two_pow ⟨P * 2 ^ (52 - natLog2 P), by ring⟩,
    Nat.mul_div_cancel _ (Nat.two_pow_pos k)]
  rw [if_neg (by omega), if_pos (by omega)]

theorem f64AsU64_digits {v mult : Nat} (hm : 1 ≤ mult) (hb : v * mult < 2 ^ 53) :
    f64AsU64 (false, .fin v 0 0) mult = v * mult := by
  by_cases hv : v = 0
  · subst hv
    simp only [f64AsU64, roundF64]
    norm_num
  · have hv1 : 1 ≤ v := by omega
    have hvlt : v < 2 ^ 53 := lt_of_le_of_lt (Nat.le_mul_of_pos_right v hm) hb
    have hmlt : mult < 2 ^ 53 :=
      lt_of_le_of_lt (Nat.le_mul_of_pos_left mult hv1) hb
    have hLv : natLog2 v ≤ 52 := natLog2_le hv1 hvlt
    have hLm : natLog2 mult ≤ 52 := natLog2_le hm hmlt
    have hP1 : 1 ≤ v * mult := Nat.mul_le_mul hv1 hm
    have hLP : natLog2 (v * mult) ≤ 52 := natLog2_le hP1 hb
    have h1 : roundF64 (v * 10 ^ 0) (10 ^ 0) =
        some (v * 2 ^ (52 - natLog2 v), natLog2 v + 1022) := by
      have := roundF64_int (k := 0) hv1 hvlt
      simpa using this
    have h2 : roundF64 mult 1 =
        some (mult * 2 ^ (52 - natLog2 mult), natLog2 mult + 1022) := by
      have := roundF64_int (k := 0) hm hmlt
      simpa using this
    have hexp : v * 2 ^ (52 - natLog2 v) * (mult * 2 ^ (52 - natLog2 mult)) *
        2 ^ (natLog2 v + 1022 + (natLog2 mult + 1022)) = v * mult * 2 ^ 2148 := by
      rw [show (2148 : Nat) =
          (52 - natLog2 v) + ((52 - natLog2 mult) + (natLog2 v + 1022 + (natLog2 mult + 1022)))
          from by omega, pow_add, pow_add]
      ring
    have h3 : roundF64 (v * 2 ^ (52 - natLog2 v) * (mult * 2 ^ (52 - natLog2 mult)) *
        2 ^ (natLog2 v + 1022 + (natLog2 mult + 1022))) (2 ^ 2148) =
        some (v * mult * 2 ^ (52 - natLog2 (v * mult)), natLog2 (v * mult) + 1022) := by
      rw [hexp]
      exact roundF64_int hP1 hb
    have hMv0 : ¬ (v * 2 ^ (52 - natLog2 v) = 0) := by positivity
    have hMm0 : ¬ (mult * 2 ^ (52 - natLog2 mult) = 0) := by positivity
    show f64AsU64 (false, .fin v 0 0) mult = v * mult
    simp only [f64AsU64]
    rw [h1]
    simp only [if_neg hMv0]
    rw [h2]
    simp only [if_neg hMm0]
    rw [h3]
    simp only [castF64U64]
    rw [show v * mult * 2 ^ (52 - natLog2 (v * mult)) * 2 ^ (natLog2 (v * mult) + 1022) =
        v * mult * 2 ^ 1074 from by
      rw [show (1074 : Nat) = (52 - natLog2 (v * mult)) + (natLog2 (v * mult) + 1022)
        from by omega, pow_add]
      ring]
    rw [Nat.mul_div_cancel _ (Nat.two_pow_pos 1074)]
    have : v * mult ≤ 2 ^ 64 - 1 := by
      have h64 : (2:ℕ) ^ 53 ≤ 2 ^ 64 - 1 := by norm_num
      omega
    exact Nat.min_eq_left this

theorem digits_ne_word {ds w : Str} (hdig : ∀ c ∈ ds, c ∈ ("0123456789").data)
    (hw : ∃ c ∈ w, c ∉ ("0123456789").data) : ds ≠ w := by
  rintro rfl
  obtain ⟨c, hc1, hc2⟩ := hw
  exact hc2 (hdig c hc1)

theorem parseF64_digits {ds : Str} (hne : ds ≠ [])
    (h : ∀ c ∈ ds, c ∈ ("0123456789").data) :
    parseF64 ds = some (false, .fin (digitsToNat ds) 0 0) := by
  have htake : ds.takeWhile Char.isDigit = ds :=
    List.takeWhile_eq_self_iff.mpr (fun c hc => digit_isDigit (h c hc))
  have hdrop : ds.dropWhile Char.isDigit = [] :=
    List.dropWhile_eq_nil_iff.mpr (fun c hc => digit_isDigit (h c hc))
  have hbody : parseDecNumber ds = some (digitsToNat ds, 0, 0) := by
    unfold parseDecNumber
    rw [htake, hdrop]
    simp [hne]
  have hlow : toLowerStr ds = ds := toLowerStr_digits h
  have hni : ds ≠ ("inf").data := digits_ne_word h ⟨'i', by decide, by decide⟩
  have hny : ds ≠ ("infinity").data := digits_ne_word h ⟨'i', by decide, by decide⟩
  have hnn : ds ≠ ("nan").data := digits_ne_word h ⟨'n', by decide, by decide⟩
  have hcore : parseF64Core false ds = some (false, .fin (digitsToNat ds) 0 0) := by
    unfold parseF64Core
    rw [hlow, if_neg (not_or.mpr ⟨hni, hny⟩), if_neg hnn, hbody]
    rfl
  cases ds with
  | nil => exact absurd rfl hne
  | cons a l =>
    have ha := h a (by simp)
    have ha1 : a ≠ '-' := by intro hEq; rw [hEq] at ha; exact absurd ha (by decide)
    have ha2 : a ≠ '+' := by intro hEq; rw [hEq] at ha; exact absurd ha (by decide)
    unfold parseF64
    split
    · rename_i heq; injection heq with hh1 _; exact absurd hh1 ha1
    · rename_i heq; injection heq with hh1 _; exact absurd hh1 ha2
    · exact hcore

theorem trimEndMatchesGo_no {pat s : Str} (h : pat.isSuffixOf s = false) :
    ∀ fuel, trimEndMatchesGo pat fuel s = s := by
  intro fuel
  cases fuel <;> simp [trimEndMatchesGo, h]

theorem trimEndMatches_digits_unit {ds unit : Str} (hune : unit ≠ [])
    (hdig : ∀ c ∈ ds, c ∈ ("0123456789").data)
    (hlast : ∃ c, unit.getLast? = some c ∧ c ∉ ("0123456789").data) :
    trimEndMatches unit (ds ++ unit) = ds := by
  obtain ⟨c, hc, hcd⟩ := hlast
  have hsufds : unit.isSuffixOf ds = false := by
    rw [Bool.eq_false_iff, Ne, List.isSuffixOf_iff_suffix]
    intro h
    obtain ⟨t, ht⟩ := h
    obtain ⟨hne0, rfl⟩ := List.mem_getLast?_eq_getLast (l := unit) hc
    have : unit.getLast hne0 ∈ ds := by
      rw [← ht]
      exact List.mem_append_right t (List.getLast_mem hne0)
    exact hcd (hdig _ this)
  have hlen : (ds ++ unit).length = ds.length + unit.length := List.length_append ds unit
  have hpos : 0 < unit.length := List.length_pos.mpr hune
  unfold trimEndMatches
  have hcases : ∃ k, (ds ++ unit).length = k + 1 := ⟨ds.length + unit.length - 1, by omega⟩
  obtain ⟨k, hk⟩ := hcases
  rw [hk]
  have hcond : unit ≠ [] ∧ unit.isSuffixOf (ds ++ unit) := by
    exact ⟨hune, List.isSuffixOf_iff_suffix.mpr (List.suffix_append ds unit)⟩
  rw [show trimEndMatchesGo unit (k + 1) (ds ++ unit) =
      trimEndMatchesGo unit k ((ds ++ unit).take ((ds ++ unit).length - unit.length)) by
    simp [trimEndMatchesGo, hcond]]
  have htk : (ds ++ unit).take ((ds ++ unit).length - unit.length) = ds := by
    rw [hlen, show ds.length + unit.length - unit.length = ds.length by omega,
      List.take_left]
  rw [htk, trimEndMatchesGo_no hsufds]

theorem parseSizeLoop_skip {s unit : Str} {mult : Nat} {rest : List (Str × Nat)}
    (h : unit.isSuffixOf s = false) :
    parseSizeLoop s ((unit, mult) :: rest) = parseSizeLoop s rest := by
  simp [parseSizeLoop, h]

theorem parseSizeLoop_hit {s unit : Str} {mult : Nat} {rest : List (Str × Nat)}
    {v : Bool × F64Lit} (h : unit.isSuffixOf s = true)
    (hparse : parseF64 (trimEndMatches unit s) = some v) :
    parseSizeLoop s ((unit, mult) :: rest) = f64AsU64 v mult := by
  simp [parseSizeLoop, h, hparse]

theorem self_unit_hit {ds unit : Str} (hne : ds ≠ [])
    (hune : unit ≠ [])
    (hdig : ∀ c ∈ ds, c ∈ ("0123456789").data)
    (hlast : ∃ c, unit.getLast? = some c ∧ c ∉ ("0123456789").data)
    {mult : Nat} {rest : List (Str × Nat)}
    (hm : 1 ≤ mult) (hb : digitsToNat ds * mult < 2 ^ 53) :
    parseSizeLoop (ds ++ unit) ((unit, mult) :: rest) = digitsToNat ds * mult := by
  rw [parseSizeLoop_hit (List.isSuffixOf_iff_suffix.mpr (List.suffix_append ds unit))
    (by rw [trimEndMatches_digits_unit hune hdig hlast]; exact parseF64_digits hne hdig)]
  exact f64AsU64_digits hm hb

/-- C8 as amended: `parse_size` interprets a numeric prefix with unit
suffixes case-insensitively per the source's table — decimal multipliers
for `k/kb`, `m/mb`, `g/gb`, binary for `kib/mib/gib`, 1 for `b` — parsing
the prefix as an `f64` and multiplying in IEEE-754 binary64 arithmetic with
a saturating `as u64` cast; for a digit prefix whose product with the
multiplier stays below `2 ^ 53` every rounding is exact, so the result is
exactly the numeric prefix times the multiplier.  An unparseable string
yields 0 (the 5,000,000-byte default arises only from the CLI's default
`"5MB"` argument, not from `parse_size`). -/
theorem C8_parse_size_amended (ds u' unit : Str) (mult : Nat)
    (hne : ds ≠ []) (hdig : ∀ c ∈ ds, c ∈ ("0123456789").data)
    (hmem : (unit, mult) ∈ sizeUnits) (hu : toLowerStr u' = unit)
    (hbound : digitsToNat ds * mult < 2 ^ 53) :
    parse_size (ds ++ u') = digitsToNat ds * mult := by
  simp only [sizeUnits, List.mem_cons, List.not_mem_nil, or_false, Prod.mk.injEq] at hmem
  have start : parse_size (ds ++ u') = parseSizeLoop (ds ++ unit) sizeUnits := by
    unfold parse_size
    rw [trimStr_eq_self (ws_all hdig (unit_chars_not_ws hu (by
        rcases hmem with hq | hq | hq | hq | hq | hq | hq | hq | hq | hq <;>
          obtain ⟨rfl, rfl⟩ := hq <;> decide))),
      toLowerStr_append, toLowerStr_digits hdig, hu]
  rw [start]
  simp only [sizeUnits]
  rcases hmem with hq | hq | hq | hq | hq | hq | hq | hq | hq | hq <;>
    obtain ⟨rfl, rfl⟩ := hq
  · -- gib
    exact self_unit_hit hne (by decide) hdig ⟨'b', by decide, by decide⟩ (by decide) hbound
  · -- g
    rw [parseSizeLoop_skip (not_suffix_append_drop (by decide) (by decide))]
    exact self_unit_hit hne (by decide) hdig ⟨'g', by decide, by decide⟩ (by decide) hbound
  · -- mib
    rw [parseSizeLoop_skip (by rw [suffix_append_of_le (by decide)]; decide),
      parseSizeLoop_skip (by rw [suffix_append_of_le (by decide)]; decide)]
    exact self_unit_hit hne (by decide) hdig ⟨'b', by decide, by decide⟩ (by decide) hbound
  · -- m
    rw [parseSizeLoop_skip (not_suffix_append_drop (by decide) (by decide)),
      parseSizeLoop_skip (by rw [suffix_append_of_le (by decide)]; decide),
      parseSizeLoop_skip (not_suffix_append_drop (by decide) (by decide))]
    exact self_unit_hit hne (by decide) hdig ⟨'m', by decide, by decide⟩ (by decide) hbound
  · -- kib
    rw [parseSizeLoop_skip (by rw [suffix_append_of_le (by decide)]; decide),
      parseSizeLoop_skip (by rw [suffix_append_of_le (by decide)]; decide),
      parseSizeLoop_skip (by rw [suffix_append_of_le (by decide)]; decide),
      parseSizeLoop_skip (by rw [suffix_append_of_le (by decide)]; decide)]
    exact self_unit_hit hne (by decide) hdig ⟨'b', by decide, by decide⟩ (by decide) hbound
  · -- k
    rw [parseSizeLoop_skip (not_suffix_append_drop (by decide) (by decide)),
      parseSizeLoop_skip (by rw [suffix_append_of_le (by decide)]; decide),
      parseSizeLoop_skip (not_suffix_append_drop (by decide) (by decide)),
      parseSizeLoop_skip (by rw [suffix_append_of_le (by decide)]; decide),
      parseSizeLoop_skip (not_suffix_append_drop (by decide) (by decide))]
    exact self_unit_hit hne (by decide) hdig ⟨'k', by decide, by decide⟩ (by decide) hbound
  · -- kb
    rw [parseSizeLoop_skip (not_suffix_append_drop (by decide) (by decide)),
      parseSizeLoop_skip (by rw [suffix_append_of_le (by decide)]; decide),
      parseSizeLoop_skip (not_suffix_append_drop (by decide) (by decide)),
      parseSizeLoop_skip (by rw [suffix_append_of_le (by decide)]; decide),
      parseSizeLoop_skip (not_suffix_append_drop (by decide) (by decide)),
      parseSizeLoop_skip (by rw [suffix_append_of_le (by decide)]; decide)]
    exact self_unit_hit hne (by decide) hdig ⟨'b', by decide, by decide⟩ (by decide) hbound
  · -- mb
    rw [parseSizeLoop_skip (not_suffix_append_drop (by decide) (by decide)),
      parseSizeLoop_skip (by rw [suffix_append_of_le (by decide)]; decide),
      parseSizeLoop_skip (not_suffix_append_drop (by decide) (by decide)),
      parseSizeLoop_skip (by rw [suffix_append_of_le (by decide)]; decide),
      parseSizeLoop_skip (not_suffix_append_drop (by decide) (by decide)),
      parseSizeLoop_skip (by rw [suffix_append_of_le (by decide)]; decide),
      parseSizeLoop_skip (by rw [suffix_append_of_le (by decide)]; decide)]
    exact self_unit_hit hne (by decide) hdig ⟨'b', by decide, by decide⟩ (by decide) hbound
  · -- gb
    rw [parseSizeLoop_skip (not_suffix_append_drop (by decide) (by decide)),
      parseSizeLoop_skip (by rw [suffix_append_of_le (by decide)]; decide),
      parseSizeLoop_skip (not_suffix_append_drop (by decide) (by decide)),
      parseSizeLoop_skip (by rw [suffix_append_of_le (by decide)]; decide),
      parseSizeLoop_skip (not_suffix_append_drop (by decide) (by decide)),
      parseSizeLoop_skip (by rw [suffix_append_of_le (by decide)]; decide),
      parseSizeLoop_skip (by rw [suffix_append_of_le (by decide)]; decide),
      parseSizeLoop_skip (by rw [suffix_append_of_le (by decide)]; decide)]
    exact self_unit_hit hne (by decide) hdig ⟨'b', by decide, by decide⟩ (by decide) hbound
  · -- b
    rw [parseSizeLoop_skip (not_suffix_append_digits (by decide) hdig
        ⟨'i', by decide, by decide⟩),
      parseSizeLoop_skip (by rw [suffix_append_of_le (by decide)]; decide),
      parseSizeLoop_skip (not_suffix_append_digits (by decide) hdig
        ⟨'i', by decide, by decide⟩),
      parseSizeLoop_skip (by rw [suffix_append_of_le (by decide)]; decide),
      parseSizeLoop_skip (not_suffix_append_digits (by decide) hdig
        ⟨'i', by decide, by decide⟩),
      parseSizeLoop_skip (by rw [suffix_append_of_le (by decide)]; decide),
      parseSizeLoop_skip (not_suffix_append_digits (by decide) hdig
        ⟨'k', by decide, by decide⟩),
      parseSizeLoop_skip (not_suffix_append_digits (by decide) hdig
        ⟨'m', by decide, by decide⟩),
      parseSizeLoop_skip (not_suffix_append_digits (by decide) hdig
        ⟨'g', by decide, by decide⟩)]
    exact self_unit_hit hne (by decide) hdig ⟨'b', by decide, by decide⟩ (by decide) hbound

/-- Witness for the amended C8: `"5KiB"` parses to `5 * 1024`. -/
theorem C8_parse_size_amended_witness :
    parse_size ((("5").data) ++ (("KiB").data)) = digitsToNat (("5").data) * 1024 :=
  C8_parse_size_amended (("5").data) (("KiB").data) (("kib").data) 1024
    (by decide) (by decide) (by decide) (by decide) (by decide)

/-! ## Freshness of avoid_collision on a finite output tree -/

theorem digitsToNat_snoc (xs : Str) (d : Char) :
    digitsToNat (xs ++ [d]) = digitsToNat xs * 10 + (d.toNat - 48) := by
  unfold digitsToNat
  rw [List.foldl_append]
  rfl

theorem natToDecGo_eq : ∀ n fuel : Nat, ∀ acc : Str, n < fuel →
    natToDecGo fuel n acc = natToDec n ++ acc := by
  intro n
  induction n using Nat.strong_induction_on with
  | _ n ih =>
    intro fuel acc h
    cases fuel with
    | zero => omega
    | succ f =>
      by_cases h10 : n < 10
      · simp [natToDecGo, natToDec, h10]
      · have hdiv : n / 10 < n := Nat.div_lt_self (by omega) (by omega)
        have hL : natToDecGo (f + 1) n acc =
            natToDecGo f (n / 10) (Char.ofNat (48 + n % 10) :: acc) := by
          simp [natToDecGo, h10]
        have hR : natToDec n = natToDec (n / 10) ++ [Char.ofNat (48 + n % 10)] := by
          unfold natToDec
          rw [show natToDecGo (n + 1) n [] =
              natToDecGo n (n / 10) (Char.ofNat (48 + n % 10) :: []) by
            simp [natToDecGo, h10]]
          exact ih (n / 10) hdiv n _ (by omega)
        rw [hL, ih (n / 10) hdiv f _ (by omega), hR, List.append_assoc]
        rfl

theorem natToDec_step {n : Nat} (h10 : ¬ n < 10) :
    natToDec n = natToDec (n / 10) ++ [Char.ofNat (48 + n % 10)] := by
  have hdiv : n / 10 < n := Nat.div_lt_self (by omega) (by omega)
  unfold natToDec
  rw [show natToDecGo (n + 1) n [] =
      natToDecGo n (n / 10) (Char.ofNat (48 + n % 10) :: []) by
    simp [natToDecGo, h10]]
  exact natToDecGo_eq (n / 10) n _ (by omega)

theorem digit_char_val (m : Nat) (h : m < 10) :
    (Char.ofNat (48 + m)).toNat - 48 = m := by
  interval_cases m <;> decide

theorem digitsToNat_natToDec (n : Nat) : digitsToNat (natToDec n) = n := by
  induction n using Nat.strong_induction_on with
  | _ n ih =>
    by_cases h10 : n < 10
    · have hdef : natToDec n = [Char.ofNat (48 + n % 10)] := by
        simp [natToDec, natToDecGo, h10]
      rw [hdef, show ([Char.ofNat (48 + n % 10)] : Str) = [] ++ [Char.ofNat (48 + n % 10)] by rfl,
        digitsToNat_snoc, digit_char_val (n % 10) (by omega)]
      simp [digitsToNat]
      omega
    · have hdiv : n / 10 < n := Nat.div_lt_self (by omega) (by omega)
      rw [natToDec_step h10, digitsToNat_snoc, ih (n / 10) hdiv,
        digit_char_val (n % 10) (by omega)]
      omega

theorem natToDec_inj {a b : Nat} (h : natToDec a = natToDec b) : a = b := by
  have ha := digitsToNat_natToDec a
  rw [h, digitsToNat_natToDec] at ha
  omega

theorem candName_inj {stem ext : Str} {a b : Nat}
    (h : candName stem a ext = candName stem b ext) : a = b := by
  unfold candName at h
  exact natToDec_inj
    (List.append_cancel_left (List.append_cancel_right (List.append_cancel_right h)))

theorem collisionCand_inj {p : Path} {a b : Nat}
    (h : collisionCand p a = collisionCand p b) : a = b := by
  unfold collisionCand at h
  have h2 := List.append_cancel_left h
  injection h2 with h3 _
  exact candName_inj h3

theorem outExists_true_mem {o : OutFs} {q : Path} (h : outExists o q = true) :
    q ∈ o.dirs ++ o.files.map (fun fc => fc.1) := by
  unfold outExists at h
  rw [Bool.or_eq_true] at h
  rcases h with h | h
  · exact List.mem_append_left _ (by simpa using h)
  · rw [List.any_eq_true] at h
    obtain ⟨fc, hfc, hq⟩ := h
    refine List.mem_append_right _ ?_
    rw [beq_iff_eq] at hq
    exact hq ▸ List.mem_map_of_mem _ hfc

theorem exists_free_cand (o : OutFs) (p : Path) :
    ∃ n, 1 ≤ n ∧ n ≤ fuelOf o ∧ outExists o (collisionCand p n) = false := by
  by_contra hcon
  push_neg at hcon
  have hall : ∀ n, 1 ≤ n → n ≤ fuelOf o → outExists o (collisionCand p n) = true := by
    intro n h1 h2
    have := hcon n h1 h2
    revert this
    cases outExists o (collisionCand p n) <;> simp
  have hnodup : ((List.range' 1 (fuelOf o)).map (collisionCand p)).Nodup := by
    refine List.Nodup.map_on (fun x _ y _ hxy => collisionCand_inj hxy) ?_
    exact List.nodup_range' _ _
  have hsub : ∀ q ∈ (List.range' 1 (fuelOf o)).map (collisionCand p),
      q ∈ o.dirs ++ o.files.map (fun fc => fc.1) := by
    intro q hq
    rw [List.mem_map] at hq
    obtain ⟨n, hn, rfl⟩ := hq
    rw [List.mem_range'] at hn
    exact outExists_true_mem (hall n (by omega) (by omega))
  have hcard : ((List.range' 1 (fuelOf o)).map (collisionCand p)).length ≤
      (o.dirs ++ o.files.map (fun fc => fc.1)).length := by
    calc ((List.range' 1 (fuelOf o)).map (collisionCand p)).length
        = ((List.range' 1 (fuelOf o)).map (collisionCand p)).toFinset.card :=
          (List.toFinset_card_of_nodup hnodup).symm
      _ ≤ (o.dirs ++ o.files.map (fun fc => fc.1)).toFinset.card := by
          apply Finset.card_le_card
          intro q hq
          rw [List.mem_toFinset] at hq
          rw [List.mem_toFinset]
          exact hsub q hq
      _ ≤ (o.dirs ++ o.files.map (fun fc => fc.1)).length := List.toFinset_card_le _
  simp only [List.length_map, List.length_range', List.length_append,
    List.length_map] at hcard
  unfold fuelOf at hcard
  omega

theorem collisionLoop_free (ex : Path → Bool) (p : Path) :
    ∀ fuel n : Nat, (∃ m, n ≤ m ∧ m < n + fuel ∧ ex (collisionCand p m) = false) →
      ex (collisionLoop ex p n fuel) = false := by
  intro fuel
  induction fuel with
  | zero =>
    intro n h
    obtain ⟨m, h1, h2, _⟩ := h
    omega
  | succ f ih =>
    intro n h
    obtain ⟨m, h1, h2, h3⟩ := h
    by_cases hn : ex (collisionCand p n) = false
    · simpa [collisionLoop, hn] using hn
    · rw [Bool.not_eq_false] at hn
      simp only [collisionLoop, hn, if_true]
      apply ih
      refine ⟨m, ?_, by omega, h3⟩
      rcases Nat.eq_or_lt_of_le h1 with rfl | hlt
      · rw [h3] at hn
        exact absurd hn (by simp)
      · omega

theorem avoid_collision_fresh (o : OutFs) (p : Path) :
    outExists o (avoid_collision (outExists o) (fuelOf o) p) = false := by
  unfold avoid_collision
  by_cases h : outExists o p = true
  · rw [h]
    simp only [Bool.not_true, Bool.false_eq_true, if_false]
    apply collisionLoop_free
    obtain ⟨n, h1, h2, h3⟩ := exists_free_cand o p
    exact ⟨n, h1, by omega, h3⟩
  · rw [Bool.not_eq_true] at h
    rw [h]
    simpa using h

theorem addFile_not_exists {o : OutFs} {p : Path} (h : outExists o p = false)
    (c : Bytes) : (o.addFile p c).files = o.files ++ [(p, c)] := by
  unfold OutFs.addFile
  unfold outExists at h
  rw [Bool.or_eq_false_iff] at h
  rw [h.2]
  simp

/-! ## C10: copy_deleted_tree ignores the ignore rules -/

theorem cdt_foldl_mem (wfail : Path → Bool) (l : List (Path × Bytes)) :
    ∀ (acc : OutFs × Counters × List Path) (q : Path) (c : Bytes),
      (q, c) ∈ acc.1.files → (q, c) ∈ (l.foldl (cdtFileStep wfail) acc).1.files := by
  induction l with
  | nil => intro acc q c h; exact h
  | cons fc rest ih =>
    intro acc q c h
    obtain ⟨out, cn, proc⟩ := acc
    rw [List.foldl_cons]
    apply ih
    simp only [cdtFileStep]
    set out1 := out.mkdirAll (markedFileDest fc.1).dropLast with hout1
    have hmem1 : (q, c) ∈ out1.files := by
      rw [hout1, mkdirAll_files]
      exact h
    by_cases hw : wfail (avoid_collision (outExists out1) (fuelOf out1) (markedFileDest fc.1)) = true
    · simp only [hw, if_true]
      exact hmem1
    · rw [Bool.not_eq_true] at hw
      simp only [hw, Bool.false_eq_true, if_false]
      rw [addFile_not_exists (avoid_collision_fresh out1 (markedFileDest fc.1)) _]
      exact List.mem_append_left _ hmem1

theorem splitLastDot_none {z : Str} (h : '.' ∉ z) : splitLastDot z = none := by
  induction z with
  | nil => rfl
  | cons c z' ih =>
    have hc : ¬ c = '.' := fun hc => h (hc ▸ List.mem_cons_self c z')
    unfold splitLastDot
    rw [ih (fun hm => h (List.mem_cons_of_mem c hm))]
    simp [show ¬ c = '.' from hc]

theorem splitLastDot_append {y z : Str} (h : '.' ∉ z) :
    splitLastDot (y ++ '.' :: z) = some (y, z) := by
  induction y with
  | nil =>
    show splitLastDot ('.' :: z) = some ([], z)
    unfold splitLastDot
    rw [splitLastDot_none h]
    simp
  | cons c y' ih =>
    show splitLastDot (c :: (y' ++ '.' :: z)) = some (c :: y', z)
    unfold splitLastDot
    rw [ih]

theorem deleted_suffix_rustExtension {x : Str} :
    rustExtension ((x ++ (".deleted").data) ++ (".deleted").data) =
      some (("deleted").data) := by
  have hsh : ((x ++ (".deleted").data) ++ (".deleted").data : Str) =
      (x ++ (".deleted").data) ++ ('.' :: ("deleted").data) := rfl
  unfold rustExtension
  rw [hsh, splitLastDot_append (by decide)]
  simp

theorem avoid_collision_deleted_suffix (ex : Path → Bool) (fuel : Nat) (rel : Path)
    (hrel : rel ≠ []) :
    ((".deleted").data).isSuffixOf
      (((avoid_collision ex fuel (markedFileDest rel)).getLast?).getD []) = true := by
  obtain ⟨x, xs, hlast, hinit⟩ : ∃ x xs, rel.getLast? = some x ∧ rel.dropLast = xs := by
    cases h : rel.getLast? with
    | none => exact absurd (List.getLast?_eq_none_iff.mp h) hrel
    | some x => exact ⟨x, rel.dropLast, rfl, rfl⟩
  have hdest : markedFileDest rel =
      (rel.dropLast.map (fun comp => comp ++ (".deleted").data)) ++
        [(x ++ (".deleted").data) ++ (".deleted").data] := by
    unfold markedFileDest appendToLast rel_parts_with_deleted_suffix
    have hmap_last : (rel.map (fun comp => comp ++ (".deleted").data)).getLast? =
        some (x ++ (".deleted").data) := by
      conv_lhs => rw [← List.dropLast_append_getLast? x hlast]
      rw [List.map_append]
      simp
    rw [hmap_last]
    have hmap_dl : (rel.map (fun comp => comp ++ (".deleted").data)).dropLast =
        rel.dropLast.map (fun comp => comp ++ (".deleted").data) := by
      conv_lhs => rw [← List.dropLast_append_getLast? x hlast]
      rw [List.map_append]
      simp
    rw [hmap_dl]
  set name := (x ++ (".deleted").data) ++ (".deleted").data with hname
  have hnamelast : (markedFileDest rel).getLast? = some name := by
    rw [hdest, List.getLast?_concat]
  rw [List.isSuffixOf_iff_suffix]
  unfold avoid_collision
  by_cases hex : ex (markedFileDest rel) = true
  · rw [hex]
    simp only [Bool.not_true, Bool.false_eq_true, if_false]
    -- the loop returns some collisionCand, whose name ends with ".deleted"
    have hcand : ∀ n, ((collisionCand (markedFileDest rel) n).getLast?).getD [] =
        candName (fileStem name) n ('.' :: ("deleted").data) := by
      intro n
      unfold collisionCand
      rw [hnamelast]
      simp only [Option.getD_some]
      rw [show (rustExtension name : Option Str) = some (("deleted").data) from
        deleted_suffix_rustExtension]
      rw [List.getLast?_concat]
      rfl
    have hloop : ∀ fuel n, ∃ m, collisionLoop ex (markedFileDest rel) n fuel =
        collisionCand (markedFileDest rel) m := by
      intro fuel
      induction fuel with
      | zero => intro n; exact ⟨n, rfl⟩
      | succ f ih =>
        intro n
        by_cases hc : ex (collisionCand (markedFileDest rel) n) = true
        · simp only [collisionLoop, hc, if_true]
          exact ih (n + 1)
        · rw [Bool.not_eq_true] at hc
          simp only [collisionLoop, hc, Bool.false_eq_true, if_false]
          exact ⟨n, rfl⟩
    obtain ⟨m, hm⟩ := hloop fuel 1
    rw [hm, hcand m]
    unfold candName
    exact ⟨_, rfl⟩
  · rw [Bool.not_eq_true] at hex
    rw [hex]
    simp only [Bool.not_false, if_true]
    rw [hnamelast]
    exact ⟨x ++ (".deleted").data, rfl⟩

theorem cdt_foldl_content (l : List (Path × Bytes)) :
    ∀ (acc : OutFs × Counters × List Path) (fc : Path × Bytes), fc ∈ l → fc.1 ≠ [] →
      ∃ p, (p, fc.2) ∈ (l.foldl (cdtFileStep (fun _ => false)) acc).1.files ∧
        ((".deleted").data).isSuffixOf ((p.getLast?).getD []) = true := by
  induction l with
  | nil => intro acc fc h; exact absurd h (List.not_mem_nil fc)
  | cons hd rest ih =>
    intro acc fc hmem hne
    rcases List.mem_cons.mp hmem with rfl | hmem'
    · obtain ⟨out, cn, proc⟩ := acc
      rw [List.foldl_cons]
      set out1 := out.mkdirAll (markedFileDest fc.1).dropLast with hout1
      set dest := avoid_collision (outExists out1) (fuelOf out1) (markedFileDest fc.1)
        with hdest
      refine ⟨dest, ?_, ?_⟩
      · apply cdt_foldl_mem
        simp only [cdtFileStep]
        rw [← hout1, ← hdest]
        simp only [Bool.false_eq_true, if_false]
        rw [addFile_not_exists (avoid_collision_fresh out1 (markedFileDest fc.1)) _]
        exact List.mem_append_right _ (by simp)
      · rw [hdest]
        exact avoid_collision_deleted_suffix _ _ _ hne
    · rw [List.foldl_cons]
      exact ih _ fc hmem' hne

/-- C10: `copy_deleted_tree` re-walks the physical base subtree under a
deleted-directory head without applying the ignore patterns or the default
ignore set: the processed set is exactly the physical files under the head,
`del_files` is incremented once per such file, a file ignored by the scans
(e.g. a `.git`-named one) is still processed while absent from the scan, and
with no copy failures each such file's content is materialized in the output
tree under a `.deleted`-marked name. -/
theorem C10_copy_deleted_tree_unfiltered (fsA : PhysFs) (head : Path) (out : OutFs)
    (c : Counters) (wfail : Path → Bool) (pats : List (Str → Bool)) :
    ((copy_deleted_tree head fsA wfail out c).2.2 =
      (fsA.files.filter (fun fc => head.isPrefixOf fc.1)).map (fun fc => fc.1)) ∧
    ((copy_deleted_tree head fsA wfail out c).2.1.del_files =
      c.del_files + (fsA.files.filter (fun fc => head.isPrefixOf fc.1)).length) ∧
    (∀ rel content, (rel, content) ∈ fsA.files → head <+: rel →
      is_ignored rel pats = true →
      rel ∈ (copy_deleted_tree head fsA wfail out c).2.2 ∧
      rel ∉ (scan_dir fsA pats).files.map (fun fc => fc.1)) ∧
    (∀ rel content, (rel, content) ∈ fsA.files → head <+: rel → rel ≠ [] →
      ∃ p, (p, content) ∈ (copy_deleted_tree head fsA (fun _ => false) out c).1.files ∧
        ((".deleted").data).isSuffixOf ((p.getLast?).getD []) = true) := by
  have hspec := cdt_foldl_spec wfail (fsA.files.filter (fun fc => head.isPrefixOf fc.1))
    ((fsA.dirs.filter (fun d => head.isPrefixOf d)).foldl
        (fun o d => o.mkdirAll (rel_parts_with_deleted_suffix d)) out,
      (if head ∈ fsA.dirs then { c with del_dirs := c.del_dirs + 1 } else c), [])
  have hproc : (copy_deleted_tree head fsA wfail out c).2.2 =
      (fsA.files.filter (fun fc => head.isPrefixOf fc.1)).map (fun fc => fc.1) := by
    unfold copy_deleted_tree
    have := hspec.2.2.2.2.2.2
    simpa using this
  have hcount : (copy_deleted_tree head fsA wfail out c).2.1.del_files =
      c.del_files + (fsA.files.filter (fun fc => head.isPrefixOf fc.1)).length := by
    unfold copy_deleted_tree
    have := hspec.1
    simp only at this
    rw [this]
    split_ifs <;> simp
  refine ⟨hproc, hcount, ?_, ?_⟩
  · intro rel content hmem hpre hig
    constructor
    · rw [hproc, List.mem_map]
      refine ⟨(rel, content), List.mem_filter.mpr ⟨hmem, ?_⟩, rfl⟩
      exact List.isPrefixOf_iff_prefix.mpr hpre
    · intro hscan
      rw [List.mem_map] at hscan
      obtain ⟨fc, hfc, hfc1⟩ := hscan
      simp only [scan_dir, List.mem_filter] at hfc
      obtain ⟨-, hcond⟩ := hfc
      rw [Bool.and_eq_true] at hcond
      have hsurv := hcond.2
      unfold survivesPrune at hsurv
      rw [List.all_eq_true] at hsurv
      have hself := hsurv fc.1 ((List.mem_inits fc.1 fc.1).mpr List.prefix_rfl)
      rw [Bool.or_eq_true] at hself
      rcases hself with hnil | hni
      · rw [decide_eq_true_eq] at hnil
        rw [hfc1] at hnil
        subst hnil
        rw [hfc1] at hcond
        simpa using hcond.1
      · rw [Bool.not_eq_true'] at hni
        rw [hfc1] at hni
        rw [hig] at hni
        exact absurd hni (by simp)
  · intro rel content hmem hpre hne
    unfold copy_deleted_tree
    exact cdt_foldl_content _ _ (rel, content)
      (List.mem_filter.mpr ⟨hmem, List.isPrefixOf_iff_prefix.mpr hpre⟩) hne

/-- Witness for C10: the `.git`-named file under the deleted head `old` is
ignored by the scans yet processed, and its content lands in the output under
a `.deleted`-marked name. -/
theorem C10_copy_deleted_tree_unfiltered_witness :
    ([("old").data, (".git").data] ∈
        (copy_deleted_tree [("old").data] scenDel_base (fun _ => false)
          OutFs.empty Counters.init).2.2 ∧
      [("old").data, (".git").data] ∉
        (scan_dir scenDel_base []).files.map (fun fc => fc.1)) ∧
    ∃ p, (p, [122]) ∈ (copy_deleted_tree [("old").data] scenDel_base (fun _ => false)
        OutFs.empty Counters.init).1.files ∧
      ((".deleted").data).isSuffixOf ((p.getLast?).getD []) = true := by
  have h := C10_copy_deleted_tree_unfiltered scenDel_base [("old").data]
    OutFs.empty Counters.init (fun _ => false) []
  exact ⟨h.2.2.1 [("old").data, (".git").data] [122] (by decide) (by decide) (by decide),
    h.2.2.2 [("old").data, (".git").data] [122] (by decide) (by decide) (by decide)⟩

/-! ## C1: deleted-directory heads and subtree dominance -/

theorem insertByDepth_mem (d : Path) : ∀ (l : List Path) (x : Path),
    x ∈ insertByDepth d l ↔ x = d ∨ x ∈ l := by
  intro l
  induction l with
  | nil => intro x; simp [insertByDepth]
  | cons a l' ih =>
    intro x
    unfold insertByDepth
    split_ifs with h
    · rw [List.mem_cons, ih x, List.mem_cons]
      tauto
    · simp only [List.mem_cons]

theorem insertByDepth_pairwise {d : Path} : ∀ {l : List Path},
    l.Pairwise (fun a b => a.length ≤ b.length) →
    (insertByDepth d l).Pairwise (fun a b => a.length ≤ b.length) := by
  intro l
  induction l with
  | nil => intro _; simp [insertByDepth]
  | cons a l' ih =>
    intro hp
    rw [List.pairwise_cons] at hp
    unfold insertByDepth
    split_ifs with h
    · rw [List.pairwise_cons]
      refine ⟨?_, ih hp.2⟩
      intro x hx
      rcases (insertByDepth_mem d l' x).mp hx with rfl | hx'
      · omega
      · exact hp.1 x hx'
    · rw [List.pairwise_cons]
      refine ⟨?_, List.pairwise_cons.mpr hp⟩
      intro x hx
      rcases List.mem_cons.mp hx with rfl | hx'
      · omega
      · have := hp.1 x hx'
        omega

theorem sortByDepth_mem : ∀ (l : List Path) (x : Path), x ∈ sortByDepth l ↔ x ∈ l := by
  intro l
  induction l with
  | nil => intro x; simp [sortByDepth]
  | cons a l' ih =>
    intro x
    unfold sortByDepth
    rw [insertByDepth_mem, ih, List.mem_cons]

theorem sortByDepth_pairwise : ∀ l : List Path,
    (sortByDepth l).Pairwise (fun a b => a.length ≤ b.length) := by
  intro l
  induction l with
  | nil => simp [sortByDepth]
  | cons a l' ih => exact insertByDepth_pairwise ih

theorem prefix_length_lt {a d : Path} (h1 : a <+: d) (h2 : a ≠ d) :
    a.length < d.length :=
  lt_of_le_of_ne h1.length_le (fun he => h2 (List.IsPrefix.eq_of_length h1 he))

theorem min_ancestor (S : Path → Prop) (d : Path) (hS : S d) :
    ∃ m, m <+: d ∧ S m ∧ ∀ a, a <+: m → a ≠ m → ¬ S a := by
  have H : ∀ n (d : Path), d.length ≤ n → S d →
      ∃ m, m <+: d ∧ S m ∧ ∀ a, a <+: m → a ≠ m → ¬ S a := by
    intro n
    induction n with
    | zero =>
      intro d hlen hSd
      refine ⟨d, List.prefix_rfl, hSd, ?_⟩
      intro a ha hne
      have hd : d = [] := List.length_eq_zero.mp (by omega)
      subst hd
      exact absurd (List.prefix_nil.mp ha) hne
    | succ n ih =>
      intro d hlen hSd
      by_cases hmin : ∀ a, a <+: d → a ≠ d → ¬ S a
      · exact ⟨d, List.prefix_rfl, hSd, hmin⟩
      · push_neg at hmin
        obtain ⟨a, ha1, ha2, hSa⟩ := hmin
        have hlt : a.length < d.length := prefix_length_lt ha1 ha2
        obtain ⟨m, hm1, hm2, hm3⟩ := ih a (by omega) hSa
        exact ⟨m, hm1.trans ha1, hm2, hm3⟩
  exact H d.length d le_rfl hS

theorem greedyHeadsGo_spec (S : Path → Prop) :
    ∀ (l₂ l₁ heads : List Path),
      (∀ x, x ∈ l₁ ++ l₂ ↔ S x) →
      (l₁ ++ l₂).Pairwise (fun a b => a.length ≤ b.length) →
      (∀ d, d ∈ heads ↔ (d ∈ l₁ ∧ S d ∧ ∀ a, a <+: d → a ≠ d → ¬ S a)) →
      ∀ d, d ∈ greedyHeadsGo heads l₂ ↔
        (S d ∧ ∀ a, a <+: d → a ≠ d → ¬ S a) := by
  intro l₂
  induction l₂ with
  | nil =>
    intro l₁ heads hmem hpair hinv d
    rw [show greedyHeadsGo heads [] = heads from rfl, hinv d]
    constructor
    · exact fun h => h.2
    · intro h
      refine ⟨?_, h.1, h.2⟩
      have := (hmem d).mpr h.1
      simpa using this
  | cons d₀ rest ih =>
    intro l₁ heads hmem hpair hinv d
    have hSd₀ : S d₀ := (hmem d₀).mp (List.mem_append_right l₁ (by simp))
    have hmem' : ∀ x, x ∈ (l₁ ++ [d₀]) ++ rest ↔ S x := by
      intro x
      rw [← hmem x]
      simp [or_assoc]
    have hpair' : ((l₁ ++ [d₀]) ++ rest).Pairwise (fun a b => a.length ≤ b.length) := by
      rw [List.append_assoc]
      exact hpair
    by_cases hmin : ∀ a, a <+: d₀ → a ≠ d₀ → ¬ S a
    · -- d₀ is minimal: it is pushed
      have hcond : heads.any (fun head => head.isPrefixOf d₀ && d₀ != head) = false := by
        rw [Bool.eq_false_iff, Ne, List.any_eq_true]
        intro hex
        obtain ⟨h, hh, hb⟩ := hex
        rw [Bool.and_eq_true, List.isPrefixOf_iff_prefix, bne_iff_ne] at hb
        have hSh : S h := ((hinv h).mp hh).2.1
        exact hmin h hb.1 (Ne.symm hb.2) hSh
      rw [show greedyHeadsGo heads (d₀ :: rest) =
          greedyHeadsGo (heads ++ [d₀]) rest by
        conv_lhs => rw [greedyHeadsGo]
        rw [hcond]
        simp]
      apply ih (l₁ ++ [d₀]) (heads ++ [d₀]) hmem' hpair'
      intro x
      rw [List.mem_append, hinv x]
      constructor
      · intro h
        rcases h with ⟨h1, h2, h3⟩ | hx
        · exact ⟨List.mem_append_left _ h1, h2, h3⟩
        · have hx' : x = d₀ := by simpa using hx
          subst hx'
          exact ⟨List.mem_append_right _ (by simp), hSd₀, hmin⟩
      · intro ⟨h1, h2, h3⟩
        rcases List.mem_append.mp h1 with h1' | h1'
        · exact Or.inl ⟨h1', h2, h3⟩
        · exact Or.inr h1'
    · -- d₀ has a deleted strict ancestor: it is skipped
      push_neg at hmin
      obtain ⟨a, ha1, ha2, hSa⟩ := hmin
      obtain ⟨m, hm1, hm2, hm3⟩ := min_ancestor S a hSa
      have hmd₀ : m <+: d₀ := hm1.trans ha1
      have hlen : m.length < d₀.length :=
        lt_of_le_of_lt hm1.length_le (prefix_length_lt ha1 ha2)
      have hml₁ : m ∈ l₁ := by
        rcases List.mem_append.mp ((hmem m).mpr hm2) with h | h
        · exact h
        · exfalso
          rcases List.mem_cons.mp h with rfl | hmr
          · omega
          · have hsub : (d₀ :: rest).Pairwise (fun a b => a.length ≤ b.length) :=
              hpair.sublist (List.sublist_append_right l₁ (d₀ :: rest))
            have := (List.pairwise_cons.mp hsub).1 m hmr
            omega
      have hmheads : m ∈ heads := (hinv m).mpr ⟨hml₁, hm2, hm3⟩
      have hmne : d₀ ≠ m := fun he => by rw [← he] at hlen; omega
      have hcond : heads.any (fun head => head.isPrefixOf d₀ && d₀ != head) = true := by
        rw [List.any_eq_true]
        exact ⟨m, hmheads, by
          rw [Bool.and_eq_true, List.isPrefixOf_iff_prefix, bne_iff_ne]
          exact ⟨hmd₀, hmne⟩⟩
      rw [show greedyHeadsGo heads (d₀ :: rest) = greedyHeadsGo heads rest by
        conv_lhs => rw [greedyHeadsGo]
        rw [hcond]
        simp]
      apply ih (l₁ ++ [d₀]) heads hmem' hpair'
      intro x
      rw [hinv x]
      constructor
      · intro ⟨h1, h2, h3⟩
        exact ⟨List.mem_append_left _ h1, h2, h3⟩
      · intro ⟨h1, h2, h3⟩
        rcases List.mem_append.mp h1 with h1' | h1'
        · exact ⟨h1', h2, h3⟩
        · exfalso
          have hx : x = d₀ := by simpa using h1'
          subst hx
          exact h3 a ha1 ha2 hSa

theorem deletedHeads_spec (dirsA dirsB : List Path) (d : Path) :
    d ∈ deletedHeads dirsA dirsB ↔
      ((d ∈ dirsA ∧ d ∉ dirsB) ∧
        ∀ a, a <+: d → a ≠ d → ¬ (a ∈ dirsA ∧ a ∉ dirsB)) := by
  unfold deletedHeads
  exact greedyHeadsGo_spec (fun x => x ∈ dirsA ∧ x ∉ dirsB)
    (sortByDepth (dirsA.filter (fun x => decide (x ∉ dirsB)))) [] []
    (fun x => by simp [sortByDepth_mem])
    (by rw [List.nil_append]; exact sortByDepth_pairwise _)
    (fun x => by simp) d

theorem cdt_proc (head : Path) (fsA : PhysFs) (wfail : Path → Bool)
    (out : OutFs) (c : Counters) :
    (copy_deleted_tree head fsA wfail out c).2.2 =
      (fsA.files.filter (fun fc => head.isPrefixOf fc.1)).map (fun fc => fc.1) := by
  unfold copy_deleted_tree
  have := (cdt_foldl_spec wfail (fsA.files.filter (fun fc => head.isPrefixOf fc.1))
    ((fsA.dirs.filter (fun d => head.isPrefixOf d)).foldl
        (fun o d => o.mkdirAll (rel_parts_with_deleted_suffix d)) out,
      (if head ∈ fsA.dirs then { c with del_dirs := c.del_dirs + 1 } else c),
      [])).2.2.2.2.2.2
  simpa using this

theorem phase1Step_proc (fsA : PhysFs) (wfail : Path → Bool)
    (acc : OutFs × Counters × List Path) (head : Path) :
    (phase1Step fsA wfail acc head).2.2 =
      acc.2.2 ++ (fsA.files.filter (fun fc => head.isPrefixOf fc.1)).map
        (fun fc => fc.1) := by
  obtain ⟨out, c, proc⟩ := acc
  rcases hr : copy_deleted_tree head fsA wfail out c with ⟨o2, c2, p2⟩
  simp only [phase1Step, hr]
  have := cdt_proc head fsA wfail out c
  rw [hr] at this
  simpa using this

theorem phase1_proc_mem (fsA : PhysFs) (wfail : Path → Bool) :
    ∀ (heads : List Path) (acc : OutFs × Counters × List Path) (rel : Path),
      (rel ∈ acc.2.2 ∨ ∃ hd, hd ∈ heads ∧ hd <+: rel ∧
        ∃ content, (rel, content) ∈ fsA.files) →
      rel ∈ (heads.foldl (phase1Step fsA wfail) acc).2.2 := by
  intro heads
  induction heads with
  | nil =>
    intro acc rel h
    rcases h with h | ⟨hd, hh, -⟩
    · exact h
    · exact absurd hh (List.not_mem_nil hd)
  | cons hd rest ih =>
    intro acc rel h
    rw [List.foldl_cons]
    apply ih
    rcases h with h | ⟨hd', hh, hpre, content, hcontent⟩
    · left
      rw [phase1Step_proc]
      exact List.mem_append_left _ h
    · rcases List.mem_cons.mp hh with rfl | hh'
      · left
        rw [phase1Step_proc]
        refine List.mem_append_right _ ?_
        rw [List.mem_map]
        exact ⟨(rel, content), List.mem_filter.mpr
          ⟨hcontent, List.isPrefixOf_iff_prefix.mpr hpre⟩, rfl⟩
      · exact Or.inr ⟨hd', hh', hpre, content, hcontent⟩

theorem under_head_not_in_scanB (fsB : PhysFs) (hB : fsB.WF)
    (pats : List (Str → Bool)) (h rel : Path)
    (hne : h ≠ []) (hpref : h <+: rel) (hneq : h ≠ rel)
    (hdirB : h ∉ (scan_dir fsB pats).dirs) :
    rel ∉ (scan_dir fsB pats).files.map (fun fc => fc.1) := by
  intro hmem
  rw [List.mem_map] at hmem
  obtain ⟨fc, hfc, hfc1⟩ := hmem
  simp only [scan_dir, List.mem_filter] at hfc
  obtain ⟨hfcB, hcond⟩ := hfc
  rw [Bool.and_eq_true, decide_eq_true_eq] at hcond
  apply hdirB
  simp only [scan_dir, List.mem_filter]
  have hdirsB : h ∈ fsB.dirs := by
    refine hB.1 fc hfcB h ?_ hne ?_
    · rw [List.mem_inits]
      rw [hfc1]
      exact hpref
    · rw [hfc1]
      exact hneq
  refine ⟨hdirsB, ?_⟩
  rw [Bool.and_eq_true, decide_eq_true_eq]
  refine ⟨hne, ?_⟩
  unfold survivesPrune at hcond ⊢
  rw [List.all_eq_true] at hcond ⊢
  intro p hp
  refine hcond.2 p ?_
  rw [List.mem_inits] at hp ⊢
  refine hp.trans ?_
  rw [← hfc1] at hpref
  exact hpref

/-- C1: the deleted-directory heads computed by `run_bigdiff` are exactly the
deleted directories (present in the base scan's dirs, absent from the target
scan's dirs) with no deleted proper ancestor, and every base-scan file lying
under some head is marked processed by the deleted-subtree copy, skipped by
the loose-deleted-file loop, and absent from the target scan's file keys
(hence from the common-file loop): it is materialized only by the subtree
copy. -/
theorem C1_deleted_heads_dominate (fsA fsB : PhysFs) (pats : List (Str → Bool))
    (hA : fsA.WF) (hB : fsB.WF) :
    (∀ d, d ∈ deletedHeads (scan_dir fsA pats).dirs (scan_dir fsB pats).dirs ↔
      ((d ∈ (scan_dir fsA pats).dirs ∧ d ∉ (scan_dir fsB pats).dirs) ∧
        ∀ a, a <+: d → a ≠ d →
          ¬ (a ∈ (scan_dir fsA pats).dirs ∧ a ∉ (scan_dir fsB pats).dirs))) ∧
    (∀ (wfail : Path → Bool) (out0 : OutFs) (c0 : Counters) (rel : Path)
        (content : Bytes),
      (rel, content) ∈ (scan_dir fsA pats).files →
      (∃ hd ∈ deletedHeads (scan_dir fsA pats).dirs (scan_dir fsB pats).dirs,
        hd <+: rel) →
      rel ∈ (phase1 (deletedHeads (scan_dir fsA pats).dirs (scan_dir fsB pats).dirs)
          fsA wfail out0 c0).2.2 ∧
      (∀ st : OutFs × Counters,
        loose_deleted_step ((scan_dir fsB pats).files.map (fun fc => fc.1))
          ((phase1 (deletedHeads (scan_dir fsA pats).dirs (scan_dir fsB pats).dirs)
            fsA wfail out0 c0).2.2) wfail st (rel, content) = .ok st) ∧
      rel ∉ (scan_dir fsB pats).files.map (fun fc => fc.1)) := by
  refine ⟨fun d => deletedHeads_spec _ _ d, ?_⟩
  intro wfail out0 c0 rel content hrel hhd
  obtain ⟨hd, hhd1, hhd2⟩ := hhd
  have hrelA : (rel, content) ∈ fsA.files := by
    simp only [scan_dir, List.mem_filter] at hrel
    exact hrel.1
  have hproc : rel ∈ (phase1 (deletedHeads (scan_dir fsA pats).dirs
      (scan_dir fsB pats).dirs) fsA wfail out0 c0).2.2 := by
    unfold phase1
    exact phase1_proc_mem fsA wfail _ _ rel (Or.inr ⟨hd, hhd1, hhd2, content, hrelA⟩)
  have hspec := (deletedHeads_spec (scan_dir fsA pats).dirs
    (scan_dir fsB pats).dirs hd).mp hhd1
  have hdne : hd ≠ [] := by
    have := hspec.1.1
    simp only [scan_dir, List.mem_filter, Bool.and_eq_true, decide_eq_true_eq] at this
    intro he
    rw [he] at this
    exact this.2.1 rfl
  have hdrel : hd ≠ rel := by
    intro he
    have hdirsA : hd ∈ fsA.dirs := by
      have := hspec.1.1
      simp only [scan_dir, List.mem_filter] at this
      exact this.1
    exact hA.2.1 (rel, content) hrelA (he ▸ hdirsA)
  refine ⟨hproc, ?_, ?_⟩
  · intro st
    unfold loose_deleted_step
    rw [if_pos hproc]
  · exact under_head_not_in_scanB fsB hB pats hd rel hdne hhd2 hdrel hspec.1.2

/-- Witness for C1 at the concrete deleted-subtree scenario: `old/a.txt` lies
under the deleted head `old` and is handled only by the subtree copy. -/
theorem C1_deleted_heads_dominate_witness :
    [("old").data, ("a.txt").data] ∈
      (phase1 (deletedHeads (scan_dir scenDel_base []).dirs
          (scan_dir scenDel_target []).dirs) scenDel_base (fun _ => false)
        OutFs.empty Counters.init).2.2 ∧
    loose_deleted_step ((scan_dir scenDel_target []).files.map (fun fc => fc.1))
      ((phase1 (deletedHeads (scan_dir scenDel_base []).dirs
          (scan_dir scenDel_target []).dirs) scenDel_base (fun _ => false)
        OutFs.empty Counters.init).2.2) (fun _ => false)
      (OutFs.empty, Counters.init) ([("old").data, ("a.txt").data], [120]) =
      .ok (OutFs.empty, Counters.init) ∧
    [("old").data, ("a.txt").data] ∉
      (scan_dir scenDel_target []).files.map (fun fc => fc.1) := by
  have h := (C1_deleted_heads_dominate scenDel_base scenDel_target []
    (by decide) (by decide)).2 (fun _ => false) OutFs.empty Counters.init
    [("old").data, ("a.txt").data] [120] (by decide) ⟨[("old").data], by decide, by decide⟩
  exact ⟨h.1, h.2.1 (OutFs.empty, Counters.init), h.2.2⟩

/-! ## C9: the counters partition the scanned file sets -/

theorem length_filter_fst {α β : Type} (p : α → Bool) (l : List (α × β)) :
    (l.filter (fun x => p x.1)).length = ((l.map (fun x => x.1)).filter p).length := by
  induction l with
  | nil => rfl
  | cons x xs ih =>
    simp only [List.map_cons, List.filter_cons]
    cases hp : p x.1 <;> simp [hp, ih]

theorem cdt_counters (head : Path) (fsA : PhysFs) (wfail : Path → Bool)
    (out : OutFs) (c : Counters) :
    (copy_deleted_tree head fsA wfail out c).2.1.same = c.same ∧
    (copy_deleted_tree head fsA wfail out c).2.1.mod_text = c.mod_text ∧
    (copy_deleted_tree head fsA wfail out c).2.1.mod_binary = c.mod_binary ∧
    (copy_deleted_tree head fsA wfail out c).2.1.new_files = c.new_files := by
  unfold copy_deleted_tree
  have h := cdt_foldl_spec wfail (fsA.files.filter (fun fc => head.isPrefixOf fc.1))
    ((fsA.dirs.filter (fun d => head.isPrefixOf d)).foldl
        (fun o d => o.mkdirAll (rel_parts_with_deleted_suffix d)) out,
      (if head ∈ fsA.dirs then { c with del_dirs := c.del_dirs + 1 } else c), [])
  simp only at h
  refine ⟨?_, ?_, ?_, ?_⟩
  · rw [h.2.1]; split_ifs <;> rfl
  · rw [h.2.2.2.1]; split_ifs <;> rfl
  · rw [h.2.2.2.2.1]; split_ifs <;> rfl
  · rw [h.2.2.1]; split_ifs <;> rfl

theorem phase1_counters (fsA : PhysFs) (wfail : Path → Bool) :
    ∀ (heads : List Path) (acc : OutFs × Counters × List Path),
      (heads.foldl (phase1Step fsA wfail) acc).2.1.same = acc.2.1.same ∧
      (heads.foldl (phase1Step fsA wfail) acc).2.1.mod_text = acc.2.1.mod_text ∧
      (heads.foldl (phase1Step fsA wfail) acc).2.1.mod_binary = acc.2.1.mod_binary ∧
      (heads.foldl (phase1Step fsA wfail) acc).2.1.new_files = acc.2.1.new_files := by
  intro heads
  induction heads with
  | nil => intro acc; exact ⟨rfl, rfl, rfl, rfl⟩
  | cons hd rest ih =>
    intro acc
    obtain ⟨out, c, proc⟩ := acc
    rw [List.foldl_cons]
    rcases hr : copy_deleted_tree hd fsA wfail out c with ⟨o2, c2, p2⟩
    have hacc : phase1Step fsA wfail (out, c, proc) hd = (o2, c2, proc ++ p2) := by
      simp only [phase1Step, hr]
    rw [hacc]
    have hstep := cdt_counters hd fsA wfail out c
    rw [hr] at hstep
    have h := ih (o2, c2, proc ++ p2)
    simp only at hstep h ⊢
    exact ⟨h.1.trans hstep.1, h.2.1.trans hstep.2.1, h.2.2.1.trans hstep.2.2.1,
      h.2.2.2.trans hstep.2.2.2⟩

theorem loose_step_ok {ks proc : List Path} {wfail : Path → Bool}
    {st st' : OutFs × Counters} {rc : Path × Bytes}
    (h : loose_deleted_step ks proc wfail st rc = .ok st') :
    st'.2.same = st.2.same ∧ st'.2.mod_text = st.2.mod_text ∧
    st'.2.mod_binary = st.2.mod_binary ∧ st'.2.new_files = st.2.new_files := by
  unfold loose_deleted_step at h
  simp only [] at h
  split_ifs at h with h1 h2 h3 <;>
    first
    | (injection h with h4; subst h4; exact ⟨rfl, rfl, rfl, rfl⟩)
    | (injection h)

theorem loosePhase_ok {ks proc : List Path} {wfail : Path → Bool} :
    ∀ {l : List (Path × Bytes)} {st st' : OutFs × Counters},
      loosePhase ks proc wfail l st = .ok st' →
      st'.2.same = st.2.same ∧ st'.2.mod_text = st.2.mod_text ∧
      st'.2.mod_binary = st.2.mod_binary ∧ st'.2.new_files = st.2.new_files := by
  intro l
  induction l with
  | nil =>
    intro st st' h
    injection h with h4
    subst h4
    exact ⟨rfl, rfl, rfl, rfl⟩
  | cons rc rest ih =>
    intro st st' h
    unfold loosePhase at h
    cases hstep : loose_deleted_step ks proc wfail st rc with
    | error e => rw [hstep] at h; exact absurd h (by simp)
    | ok st1 =>
      rw [hstep] at h
      have h1 := loose_step_ok hstep
      have h2 := ih h
      exact ⟨h2.1.trans h1.1, h2.2.1.trans h1.2.1, h2.2.2.1.trans h1.2.2.1,
        h2.2.2.2.trans h1.2.2.2⟩

theorem new_step_ok {ks : List Path} {wfail : Path → Bool}
    {st st' : OutFs × Counters} {rc : Path × Bytes}
    (h : new_file_step ks wfail st rc = .ok st') :
    st'.2.new_files = st.2.new_files + (if rc.1 ∈ ks then 0 else 1) ∧
    st'.2.same = st.2.same ∧ st'.2.mod_text = st.2.mod_text ∧
    st'.2.mod_binary = st.2.mod_binary := by
  unfold new_file_step at h
  simp only [] at h
  split_ifs at h with h1 h2 <;>
    first
    | (injection h with h4; subst h4; exact ⟨by simp [h1], rfl, rfl, rfl⟩)
    | (injection h)

theorem newPhase_ok {ks : List Path} {wfail : Path → Bool} :
    ∀ {l : List (Path × Bytes)} {st st' : OutFs × Counters},
      newPhase ks wfail l st = .ok st' →
      st'.2.new_files = st.2.new_files +
        (l.filter (fun rc => decide (rc.1 ∉ ks))).length ∧
      st'.2.same = st.2.same ∧ st'.2.mod_text = st.2.mod_text ∧
      st'.2.mod_binary = st.2.mod_binary := by
  intro l
  induction l with
  | nil =>
    intro st st' h
    injection h with h4
    subst h4
    exact ⟨by simp, rfl, rfl, rfl⟩
  | cons rc rest ih =>
    intro st st' h
    unfold newPhase at h
    cases hstep : new_file_step ks wfail st rc with
    | error e => rw [hstep] at h; exact absurd h (by simp)
    | ok st1 =>
      rw [hstep] at h
      have h1 := new_step_ok hstep
      have h2 := ih h
      refine ⟨?_, h2.2.1.trans h1.2.1, h2.2.2.1.trans h1.2.2.1,
        h2.2.2.2.trans h1.2.2.2⟩
      rw [List.filter_cons]
      by_cases hk : rc.1 ∈ ks
      · have : (decide (rc.1 ∉ ks)) = false := by simp [hk]
        rw [this]
        simp only [Bool.false_eq_true, if_false]
        rw [h2.1, h1.1, if_pos hk]
        omega
      · have : (decide (rc.1 ∉ ks)) = true := by simp [hk]
        rw [this]
        simp only [if_true]
        rw [h2.1, h1.1, if_neg hk]
        simp
        omega

theorem common_step_ok {fsA fsB : PhysFs} {sa sb : List (Path × Bytes)}
    {opts : Options} {wfail : Path → Bool} {st st' : OutFs × Counters} {rel : Path}
    (h : common_step fsA fsB sa sb opts wfail st rel = .ok st') :
    ((st'.2.same = st.2.same + 1 ∧ st'.2.mod_text = st.2.mod_text ∧
        st'.2.mod_binary = st.2.mod_binary) ∨
      (st'.2.same = st.2.same ∧ st'.2.mod_text = st.2.mod_text + 1 ∧
        st'.2.mod_binary = st.2.mod_binary) ∨
      (st'.2.same = st.2.same ∧ st'.2.mod_text = st.2.mod_text ∧
        st'.2.mod_binary = st.2.mod_binary + 1)) ∧
    st'.2.new_files = st.2.new_files := by
  unfold common_step at h
  simp only [] at h
  split at h
  · injection h with heq
    subst heq
    exact ⟨Or.inl ⟨rfl, rfl, rfl⟩, rfl⟩
  · split at h
    · split at h
      · injection h
      · split at h
        · injection h
        · injection h with heq
          subst heq
          exact ⟨Or.inr (Or.inr ⟨rfl, rfl, rfl⟩), rfl⟩
    · split at h
      · injection h
      · split at h
        · injection h
        · injection h with heq
          subst heq
          exact ⟨Or.inr (Or.inl ⟨rfl, rfl, rfl⟩), rfl⟩

theorem commonPhase_ok {fsA fsB : PhysFs} {sa sb : List (Path × Bytes)}
    {opts : Options} {wfail : Path → Bool} :
    ∀ {l : List Path} {st st' : OutFs × Counters},
      commonPhase fsA fsB sa sb opts wfail l st = .ok st' →
      st'.2.same + st'.2.mod_text + st'.2.mod_binary =
        st.2.same + st.2.mod_text + st.2.mod_binary + l.length ∧
      st'.2.new_files = st.2.new_files := by
  intro l
  induction l with
  | nil =>
    intro st st' h
    injection h with h4
    subst h4
    exact ⟨by simp, rfl⟩
  | cons rel rest ih =>
    intro st st' h
    unfold commonPhase at h
    cases hstep : common_step fsA fsB sa sb opts wfail st rel with
    | error e => rw [hstep] at h; exact absurd h (by simp)
    | ok st1 =>
      rw [hstep] at h
      have h1 := common_step_ok hstep
      have h2 := ih h
      constructor
      · rw [h2.1]
        rcases h1.1 with ⟨e1, e2, e3⟩ | ⟨e1, e2, e3⟩ | ⟨e1, e2, e3⟩ <;>
          (rw [e1, e2, e3]; simp; omega)
      · exact h2.2.trans h1.2

/-- C9: after a successful (non-dry-run; `main` skips `run_bigdiff` when
`--dry-run` is set) run, the counters partition the scanned file sets:
`same + mod_text + mod_binary` equals the number of relative paths present in
the file maps of both scans, `new_files` equals the number present only in
the target scan, the two counted key lists are duplicate-free under
well-formed inputs (so the lengths are counts of distinct paths), and every
common file's step increments exactly one of `same`, `mod_text`,
`mod_binary`. -/
theorem C9_counters_partition (fsA fsB : PhysFs) (out0 : OutFs) (opts : Options)
    (wfail : Path → Bool) (outc : OutFs × Counters)
    (hA : fsA.WF) (hB : fsB.WF)
    (hrun : run_bigdiff fsA fsB out0 opts wfail = .ok outc) :
    (outc.2.same + outc.2.mod_text + outc.2.mod_binary =
      (((scan_dir fsA opts.ignore_patterns).files.map (fun fc => fc.1)).filter
        (fun k => decide (k ∈ (scan_dir fsB opts.ignore_patterns).files.map
          (fun fc => fc.1)))).length) ∧
    (outc.2.new_files =
      (((scan_dir fsB opts.ignore_patterns).files.map (fun fc => fc.1)).filter
        (fun k => decide (k ∉ (scan_dir fsA opts.ignore_patterns).files.map
          (fun fc => fc.1)))).length) ∧
    ((((scan_dir fsA opts.ignore_patterns).files.map (fun fc => fc.1)).filter
        (fun k => decide (k ∈ (scan_dir fsB opts.ignore_patterns).files.map
          (fun fc => fc.1)))).Nodup) ∧
    ((((scan_dir fsB opts.ignore_patterns).files.map (fun fc => fc.1)).filter
        (fun k => decide (k ∉ (scan_dir fsA opts.ignore_patterns).files.map
          (fun fc => fc.1)))).Nodup) ∧
    (∀ (st : OutFs × Counters) (rel : Path) (st' : OutFs × Counters),
      common_step fsA fsB (scan_dir fsA opts.ignore_patterns).files
          (scan_dir fsB opts.ignore_patterns).files opts wfail st rel = .ok st' →
      (st'.2.same = st.2.same + 1 ∧ st'.2.mod_text = st.2.mod_text ∧
          st'.2.mod_binary = st.2.mod_binary) ∨
        (st'.2.same = st.2.same ∧ st'.2.mod_text = st.2.mod_text + 1 ∧
          st'.2.mod_binary = st.2.mod_binary) ∨
        (st'.2.same = st.2.same ∧ st'.2.mod_text = st.2.mod_text ∧
          st'.2.mod_binary = st.2.mod_binary + 1)) := by
  have hnodupA : ((scan_dir fsA opts.ignore_patterns).files.map
      (fun fc => fc.1)).Nodup := by
    have hsub : List.Sublist ((scan_dir fsA opts.ignore_patterns).files.map
        (fun fc => fc.1)) (fsA.files.map (fun fc => fc.1)) :=
      List.Sublist.map _ (List.filter_sublist fsA.files)
    exact hA.2.2.sublist hsub
  have hnodupB : ((scan_dir fsB opts.ignore_patterns).files.map
      (fun fc => fc.1)).Nodup := by
    have hsub : List.Sublist ((scan_dir fsB opts.ignore_patterns).files.map
        (fun fc => fc.1)) (fsB.files.map (fun fc => fc.1)) :=
      List.Sublist.map _ (List.filter_sublist fsB.files)
    exact hB.2.2.sublist hsub
  unfold run_bigdiff at hrun
  simp only [] at hrun
  rcases hp : phase1 (deletedHeads (scan_dir fsA opts.ignore_patterns).dirs
      (scan_dir fsB opts.ignore_patterns).dirs) fsA wfail out0 Counters.init
    with ⟨out, c, processed⟩
  rw [hp] at hrun
  simp only [] at hrun
  cases hl : loosePhase ((scan_dir fsB opts.ignore_patterns).files.map (fun fc => fc.1))
      processed wfail (scan_dir fsA opts.ignore_patterns).files (out, c) with
  | error e => rw [hl] at hrun; simp only [] at hrun; exact absurd hrun (by simp)
  | ok st1 =>
    rw [hl] at hrun
    simp only [] at hrun
    cases hn : newPhase ((scan_dir fsA opts.ignore_patterns).files.map (fun fc => fc.1))
        wfail (scan_dir fsB opts.ignore_patterns).files st1 with
    | error e => rw [hn] at hrun; simp only [] at hrun; exact absurd hrun (by simp)
    | ok st2 =>
      rw [hn] at hrun
      simp only [] at hrun
      have hc1 : c.same = 0 ∧ c.mod_text = 0 ∧ c.mod_binary = 0 ∧ c.new_files = 0 := by
        have := phase1_counters fsA wfail (deletedHeads
          (scan_dir fsA opts.ignore_patterns).dirs
          (scan_dir fsB opts.ignore_patterns).dirs) (out0, Counters.init, [])
        rw [show (deletedHeads (scan_dir fsA opts.ignore_patterns).dirs
            (scan_dir fsB opts.ignore_patterns).dirs).foldl (phase1Step fsA wfail)
            (out0, Counters.init, []) = (out, c, processed) from hp] at this
        exact this
      have hl1 := loosePhase_ok hl
      have hn1 := newPhase_ok hn
      have hcm := commonPhase_ok hrun
      refine ⟨?_, ?_, ?_, ?_, fun st rel st' h => (common_step_ok h).1⟩
      · simp only [] at hl1
        rw [hcm.1, hn1.2.1, hn1.2.2.1, hn1.2.2.2, hl1.1, hl1.2.1, hl1.2.2.1,
          hc1.1, hc1.2.1, hc1.2.2.1]
        omega
      · simp only [] at hl1
        rw [hcm.2, hn1.1, hl1.2.2.2, hc1.2.2.2,
          length_filter_fst (fun k => decide (k ∉ List.map (fun fc => fc.1)
            (scan_dir fsA opts.ignore_patterns).files))
            (scan_dir fsB opts.ignore_patterns).files]
        simp
      · exact List.Nodup.filter _ hnodupA
      · exact List.Nodup.filter _ hnodupB

/-- Witness for C9: the partition theorem applied to the concrete pair of
well-formed roots that share one byte-identical file `a`, where the run
succeeds with `same = 1` and every other counter `0`; the common-key count
is 1 and the target-only count is 0, matching the counters. -/
theorem C9_counters_partition_witness :
    scenSame_base.WF ∧ scenSame_target.WF ∧
    (run_bigdiff scenSame_base scenSame_target OutFs.empty defaultOpts
        (fun _ => false)).toOption = some (⟨[], []⟩, ⟨1, 0, 0, 0, 0, 0⟩) ∧
    1 + 0 + 0 =
      (((scan_dir scenSame_base defaultOpts.ignore_patterns).files.map
          (fun fc => fc.1)).filter
        (fun k => decide (k ∈ (scan_dir scenSame_target
            defaultOpts.ignore_patterns).files.map (fun fc => fc.1)))).length ∧
    0 = (((scan_dir scenSame_target defaultOpts.ignore_patterns).files.map
          (fun fc => fc.1)).filter
        (fun k => decide (k ∉ (scan_dir scenSame_base
            defaultOpts.ignore_patterns).files.map (fun fc => fc.1)))).length :=
  ⟨by decide, by decide, by decide,
    ((C9_counters_partition scenSame_base scenSame_target OutFs.empty
        defaultOpts (fun _ => false) (⟨[], []⟩, ⟨1, 0, 0, 0, 0, 0⟩)
        (by decide) (by decide) rfl).1),
    ((C9_counters_partition scenSame_base scenSame_target OutFs.empty
        defaultOpts (fun _ => false) (⟨[], []⟩, ⟨1, 0, 0, 0, 0, 0⟩)
        (by decide) (by decide) rfl).2.1)⟩

/-- C2: Scenario A — a base root whose `notes.txt` holds `"hello\n"` against
a target root whose `notes.txt` holds `"hello\nworld\n"` (no other entries):
the `.txt` extension selects the `"# "` line-prefix style with insert suffix
`" # NEW"`; the annotator keeps the Equal line verbatim and appends
`" # NEW"` to the Insert line `"world\n"` before its trailing newline; and
the whole run succeeds with the output tree holding exactly the artifact
`notes.txt.modified` with content `"hello\nworld # NEW\n"`, `mod_text`
incremented by one and every other counter `0`. -/
theorem C2_scenarioA_notes_diff :
    comment_style_for [("notes.txt").data] =
      .LinePrefix (("# ").data) ((" # NEW").data) ∧
    CommentStyle.append_new_suffix
        (.LinePrefix (("# ").data) ((" # NEW").data)) (("world\n").data) =
      ("world # NEW\n").data ∧
    annotate_text_diff (some (utf8Encode (("hello\n").data)))
        (some (utf8Encode (("hello\nworld\n").data)))
        (.LinePrefix (("# ").data) ((" # NEW").data)) false =
      some (("hello\nworld # NEW\n").data) ∧
    (run_bigdiff scenA_base scenA_target OutFs.empty defaultOpts
        (fun _ => false)).toOption =
      some (⟨[([("notes.txt.modified").data],
              utf8Encode (("hello\nworld # NEW\n").data))], []⟩,
           ⟨0, 0, 0, 1, 0, 0⟩) :=
  ⟨by decide, by decide, by decide, by decide⟩

end BigDiff
